import Mathlib

/-!
Shallow embedding of the ray-file converter and subsampler (`src/sample.py`):
the binary-header codec and conversion loop of `DatToTxtWorker.run`, and the
ASCII subsampling pipeline of `SubsampleWorker.run` together with
`SubsampleWorker._subsample_angular_stratified`.

Modelling conventions:
* an ASCII line is its list of whitespace tokens, each token the exact rational
  it parses to (float arithmetic is modelled by exact `ℚ` arithmetic, so every
  value is finite);
* `random.sample` is an oracle parameter `sampler`; theorems assume only what
  the library guarantees (a result of the requested length, drawn from the
  pool);
* the direction-to-bin computation uses `Real.arccos` / `atan2`; the sampling
  pipeline is parametric in that key function `binOf`, and `geomBinOf` is the
  source's actual geometric key;
* binary files are byte lists; multi-byte fields are little-endian, float32
  fields decode to `Option ℚ` (`none` for NaN/±inf).
-/

deriving instance DecidableEq for Except

namespace SFS

/-- A tokenized line of an ASCII ray file. -/
abbrev RayLine := List ℚ

/-- A (θ-index, φ-index) bin key. -/
abbrev BinKey := ℕ × ℕ

/-- The flux floor `1e-30` used by flux sanitization. -/
def fluxFloor : ℚ := 1 / 10 ^ 30

/-- Flux sanitization from `SubsampleWorker.run`: a value that is not finite or
is `≤ 0` is replaced by the floor `1e-30`.  In the exact rational model every
value is finite, so only the sign test remains. -/
def sanitizeFlux (f : ℚ) : ℚ := if f ≤ 0 then fluxFloor else f

/-- Python `round` on an exact rational: nearest integer, halves to even. -/
def pyRound (q : ℚ) : ℤ :=
  let f := ⌊q⌋
  let r := q - (f : ℚ)
  if r < 1 / 2 then f
  else if 1 / 2 < r then f + 1
  else if f % 2 = 0 then f else f + 1

/-! ### Binary header and record codec (`DatToTxtWorker.run`) -/

/-- Byte size of the fixed header layout `'<ii100sfffffff i 3f3f3f4fiiii'`. -/
def hdrSize : ℕ := 208

/-- Little-endian unsigned 32-bit value at byte offset `off`. -/
def u32At (b : List ℕ) (off : ℕ) : ℕ :=
  b.getD off 0 % 256 + 256 * (b.getD (off + 1) 0 % 256) +
    65536 * (b.getD (off + 2) 0 % 256) + 16777216 * (b.getD (off + 3) 0 % 256)

/-- Little-endian signed 32-bit value (two's complement) at byte offset `off`. -/
def i32At (b : List ℕ) (off : ℕ) : ℤ :=
  if u32At b off < 2147483648 then (u32At b off : ℤ) else (u32At b off : ℤ) - 4294967296

/-- IEEE-754 binary32 decode at byte offset `off`: `none` for NaN and ±inf,
otherwise the exact rational value. -/
def decodeF32 (b : List ℕ) (off : ℕ) : Option ℚ :=
  let u := u32At b off
  let sgn : ℚ := if u / 2 ^ 31 = 1 then -1 else 1
  let ex : ℕ := u / 2 ^ 23 % 256
  let frac : ℕ := u % 2 ^ 23
  if ex = 255 then none
  else if ex = 0 then some (sgn * ((frac : ℚ) / 2 ^ 23) * (2 : ℚ) ^ (-(126 : ℤ)))
  else some (sgn * (1 + (frac : ℚ) / 2 ^ 23) * (2 : ℚ) ^ ((ex : ℤ) - 127))

/-- The header fields that the conversion path reads and validates. -/
structure BinHeader where
  identifier : ℤ
  nbrRays : ℤ
  dimensionUnits : ℤ
  rayFormatType : ℤ
  fluxTypeIn : ℤ
deriving DecidableEq

/-- Failure conditions of `DatToTxtWorker.run`, each carrying the data the
source interpolates into its error message. -/
inductive ConvErr where
  | truncatedHeader
  | unknownIdentifier (v : ℤ)
  | unknownFormatType (v : ℤ)
  | unknownFluxType (v : ℤ)
  | unexpectedEndOfRays (i : ℕ)
deriving DecidableEq

/-- Header read and validation of `DatToTxtWorker.run` (source lines 47–82):
truncation check, then identifier ∈ {1010, 8675309}, then
ray_format_type ∈ {0, 2}, then the per-format flux_type check. -/
def parseBinHeader (b : List ℕ) : Except ConvErr BinHeader :=
  if b.length < hdrSize then .error .truncatedHeader
  else if ¬ (i32At b 0 = 1010 ∨ i32At b 0 = 8675309) then .error (.unknownIdentifier (i32At b 0))
  else if ¬ (i32At b 192 = 0 ∨ i32At b 192 = 2) then .error (.unknownFormatType (i32At b 192))
  else if i32At b 192 = 0 then
    if ¬ (i32At b 196 = 0 ∨ i32At b 196 = 1) then .error (.unknownFluxType (i32At b 196))
    else .ok ⟨i32At b 0, i32At b 4, i32At b 136, i32At b 192, i32At b 196⟩
  else
    if i32At b 196 ≠ 0 then .error (.unknownFluxType (i32At b 196))
    else .ok ⟨i32At b 0, i32At b 4, i32At b 136, i32At b 192, i32At b 196⟩

/-- Number of float32 fields per binary ray record for a format type. -/
def rayFloats (rft : ℤ) : ℕ := if rft = 0 then 7 else 8

/-- One decoded binary ray record of `nf` float32 fields starting at `off`. -/
def decodeRecord (b : List ℕ) (off : ℕ) (nf : ℕ) : List (Option ℚ) :=
  (List.range nf).map fun j => decodeF32 b (off + 4 * j)

/-- The record loop of `DatToTxtWorker.run`: read `cnt` fixed-size records
starting at byte `off` (record index `i` is carried for the error message);
fails with `UnexpectedEndOfRays` at the first short read. -/
def readRays (b : List ℕ) (nf : ℕ) : ℕ → ℕ → ℕ → Except ConvErr (List (List (Option ℚ)))
  | _, _, 0 => .ok []
  | off, i, cnt + 1 =>
    if off + 4 * nf ≤ b.length then
      match readRays b nf (off + 4 * nf) (i + 1) cnt with
      | .ok rest => .ok (decodeRecord b off nf :: rest)
      | .error e => .error e
    else .error (.unexpectedEndOfRays i)

/-- The ASCII document `DatToTxtWorker.run` writes: the four fields of the
header line `"<ray_count> <dimension_units> <ray_format_type> <flux_type>"`
followed by one decoded line per record, in input order. -/
structure AsciiOut where
  hdrNbr : ℤ
  hdrUnits : ℤ
  hdrFmt : ℤ
  hdrFlux : ℤ
  rays : List (List (Option ℚ))
deriving DecidableEq

/-- `DatToTxtWorker.run` as a pure function from input bytes to the ASCII
document it writes, or the error it raises. -/
def datToTxt (b : List ℕ) : Except ConvErr AsciiOut :=
  match parseBinHeader b with
  | .error e => .error e
  | .ok h =>
    match readRays b (rayFloats h.rayFormatType) hdrSize 0 h.nbrRays.toNat with
    | .error e => .error e
    | .ok rs => .ok ⟨h.nbrRays, h.dimensionUnits, h.rayFormatType, h.fluxTypeIn, rs⟩

/-! ### ASCII reading and subsampling (`SubsampleWorker.run`) -/

/-- Python `str.isdigit` on the token: a non-negative integer literal. -/
def isDigitTok (q : ℚ) : Bool := q.den == 1 && decide (0 ≤ q.num)

/-- Header-line detection: exactly 4 tokens whose first is a non-negative
integer literal (source line 138). -/
def isHeaderLine (l : RayLine) : Bool := l.length == 4 && isDigitTok (l.getD 0 0)

/-- The valid ray pool: the lines after the header line that tokenize into
exactly 7 fields (source lines 141–148). -/
def rayPoolAt (lines : List RayLine) (hi : ℕ) : List RayLine :=
  (lines.drop (hi + 1)).filter fun l => l.length == 7

/-- One angular bin: its key, its lines in insertion order, and its accumulated
non-negative flux (the two parallel dicts `bins` and `flux_in_bin`). -/
structure RayBin where
  key : BinKey
  lns : List RayLine
  flux : ℚ
deriving DecidableEq

/-- `bins.setdefault(key, []).append(line)` plus the flux accumulation, on an
insertion-ordered association list. -/
def insertRay : List RayBin → BinKey → RayLine → ℚ → List RayBin
  | [], k, l, f => [⟨k, [l], f⟩]
  | b :: bs, k, l, f =>
    if b.key = k then ⟨b.key, b.lns ++ [l], b.flux + f⟩ :: bs
    else b :: insertRay bs k l f

/-- One prepass step (source lines 276–299): lines that do not have exactly 7
tokens are skipped; otherwise the line joins its bin and contributes
`max 0 flux`. -/
def addToBins (binOf : RayLine → BinKey) (bs : List RayBin) (l : RayLine) : List RayBin :=
  if l.length = 7 then insertRay bs (binOf l) l (max 0 (l.getD 6 0)) else bs

/-- The whole prepass: fold the pool into insertion-ordered bins. -/
def buildBins (binOf : RayLine → BinKey) (pool : List RayLine) : List RayBin :=
  pool.foldl (addToBins binOf) []

/-- The key list of a bin list. -/
def binsKeys (bs : List RayBin) : List BinKey := bs.map RayBin.key

/-- Integer quota per bin key, insertion-ordered (the `alloc` dict). -/
abbrev Alloc := List (BinKey × ℕ)

/-- Quota of key `k` (`alloc.get(k, 0)` semantics). -/
def lookupA (a : Alloc) (k : BinKey) : ℕ := ((a.find? fun p => p.1 == k).map Prod.snd).getD 0

/-- Replace the quota stored under key `k`. -/
def updateA (a : Alloc) (k : BinKey) (v : ℕ) : Alloc :=
  a.map fun p => if p.1 = k then (p.1, v) else p

/-- Sum of all quotas (`sum(alloc.values())`). -/
def sumA (a : Alloc) : ℕ := (a.map Prod.snd).sum

/-- Population (`len(bins[k])`) of the bin with key `k`. -/
def popOf (bins : List RayBin) (k : BinKey) : ℕ :=
  ((bins.find? fun b => b.key == k).map fun b => b.lns.length).getD 0

/-- `sum(flux_in_bin.values())`. -/
def fluxTotal (bins : List RayBin) : ℚ := (bins.map RayBin.flux).sum

/-- Total binned line count. -/
def countTotal (bins : List RayBin) : ℕ := (bins.map fun b => b.lns.length).sum

/-- Quota allocation (source lines 304–316): per-bin quota proportional to
flux, falling back to count-proportional when the total flux is zero; each
quota then clamped into `[1, population]`. -/
def initAlloc (kT : ℕ) (bins : List RayBin) : Alloc :=
  let raw : Alloc :=
    if fluxTotal bins ≤ 0 then
      bins.map fun b =>
        (b.key,
          (pyRound ((kT : ℚ) * ((b.lns.length : ℚ) / ((max 1 (countTotal bins) : ℕ) : ℚ)))).toNat)
    else
      bins.map fun b => (b.key, (pyRound ((kT : ℚ) * (b.flux / fluxTotal bins))).toNat)
  raw.map fun p => (p.1, min (popOf bins p.1) (max 1 p.2))

/-- Insert `k` after every element whose `f`-value is at least `f k`. -/
def insAfterGE (f : BinKey → ℕ) (k : BinKey) : List BinKey → List BinKey
  | [] => [k]
  | x :: xs => if f k ≤ f x then x :: insAfterGE f k xs else k :: x :: xs

/-- Stable descending sort by `f`, matching `sorted(keys, key=f, reverse=True)`
(ties keep their original relative order). -/
def sortByDesc (f : BinKey → ℕ) (l : List BinKey) : List BinKey :=
  l.foldl (fun acc k => insAfterGE f k acc) []

/-- Net effect on `(alloc, current_total)` of the inner decrement `while` loop
for one visited key: the quota drops by `min (quota − 1) (total − target)`. -/
def decStep (kT : ℕ) (s : Alloc × ℕ) (k : BinKey) : Alloc × ℕ :=
  let v := lookupA s.1 k
  let d := min (v - 1) (s.2 - kT)
  (updateA s.1 k (v - d), s.2 - d)

/-- Net effect of the inner increment `while` loop for one visited key: the
quota grows by `min (population − quota) (target − total)`. -/
def incStep (kT : ℕ) (bins : List RayBin) (s : Alloc × ℕ) (k : BinKey) : Alloc × ℕ :=
  let v := lookupA s.1 k
  let d := min (popOf bins k - v) (kT - s.2)
  (updateA s.1 k (v + d), s.2 + d)

/-- Exact-count reconciliation (source lines 317–334): if the quota sum
exceeds the target, visit the keys once in descending order of their current
quota, draining each (never below 1) until the sum reaches the target; if the
sum is short, visit the keys once in descending order of spare capacity,
filling each up to its population. -/
def reconcile (kT : ℕ) (bins : List RayBin) (a0 : Alloc) : Alloc × ℕ :=
  let t0 := sumA a0
  if kT < t0 then
    (sortByDesc (fun k => lookupA a0 k) (a0.map Prod.fst)).foldl (decStep kT) (a0, t0)
  else if t0 < kT then
    (sortByDesc (fun k => popOf bins k - lookupA a0 k) (a0.map Prod.fst)).foldl
      (incStep kT bins) (a0, t0)
  else (a0, t0)

/-- Per-bin sampling (source lines 337–345): take the whole bin when its quota
covers it, otherwise draw `quota` lines through the random oracle. -/
def pickBins (sampler : List RayLine → ℕ → List RayLine) (bins : List RayBin) (a : Alloc) :
    List RayLine :=
  bins.foldl
    (fun acc b =>
      let k := lookupA a b.key
      if k = 0 then acc
      else if b.lns.length ≤ k then acc ++ b.lns
      else acc ++ sampler b.lns k)
    []

/-- `SubsampleWorker._subsample_angular_stratified`, parametric in the bin-key
function (`geomBinOf` in the source) and in the `random.sample` oracle:
prepass, allocation, reconciliation, per-bin sampling, and the final
trim-or-pad correction (source lines 266–357). -/
def subsampleAngularStratified (binOf : RayLine → BinKey)
    (sampler : List RayLine → ℕ → List RayLine) (rayLines : List RayLine) (kT : ℕ) :
    List RayLine :=
  let bins := buildBins binOf rayLines
  if bins.isEmpty then sampler rayLines kT
  else
    let a := (reconcile kT bins (initAlloc kT bins)).1
    let result := pickBins sampler bins a
    if kT < result.length then result.take kT
    else if result.length < kT then
      let remaining := rayLines.filter fun l => decide (l ∉ result)
      result ++ sampler remaining (min (kT - result.length) remaining.length)
    else result

/-- The two sampling strategies. -/
inductive SubMethod where
  | random
  | angularStratified
deriving DecidableEq

/-- The three output encodings (`'txt'`, `'tracepro'`, `'dat'`). -/
inductive SubFormat where
  | txt
  | tracepro
  | dat
deriving DecidableEq

/-- Strategy dispatch of `SubsampleWorker.run` (source lines 155–158). -/
def selectRays (binOf : RayLine → BinKey) (sampler : List RayLine → ℕ → List RayLine)
    (rayLines : List RayLine) (kT : ℕ) : SubMethod → List RayLine
  | .random => sampler rayLines kT
  | .angularStratified => subsampleAngularStratified binOf sampler rayLines kT

/-- Flux scaling and first sanitization (source lines 166–176): token 6 becomes
`sanitizeFlux (flux * scale)`, the other tokens are unchanged. -/
def scaleRay (scale : ℚ) (l : RayLine) : RayLine := l.set 6 (sanitizeFlux (l.getD 6 0 * scale))

/-- A written 7-field output row `x y z l m n flux`, with the flux sanitized
again at write time (tracepro and binary formats, source lines 205–255). -/
def writeRow (l : RayLine) : RayLine := l.take 6 ++ [sanitizeFlux (l.getD 6 0)]

/-- Failure conditions of `SubsampleWorker.run` modelled here. -/
inductive SubErr where
  | noHeaderFound
  | insufficientRays (found : ℕ)
  | invalidField
deriving DecidableEq

/-- The fixed literal written as the binary output description. -/
def descriptionLit : String := "Subsampled LUXEON Z ray file"

/-- The binary output header built at source lines 214–244 (the source
additionally zero-pads the description to 100 bytes). -/
structure DatHeaderOut where
  identifier : ℤ
  nbrRays : ℕ
  description : String
  sourceFlux : ℚ
  raySetFlux : ℚ
  wavelength : ℚ
  azimuthBeg : ℚ
  azimuthEnd : ℚ
  polarBeg : ℚ
  polarEnd : ℚ
  dimensionUnits : ℤ
  locX : ℚ
  locY : ℚ
  locZ : ℚ
  rotX : ℚ
  rotY : ℚ
  rotZ : ℚ
  scaleX : ℚ
  scaleY : ℚ
  scaleZ : ℚ
  unused1 : ℚ
  unused2 : ℚ
  unused3 : ℚ
  unused4 : ℚ
  rayFormatType : ℤ
  fluxTypeOut : ℤ
  reserved1 : ℤ
  reserved2 : ℤ
deriving DecidableEq

/-- The document written by `SubsampleWorker.run`, per output format (the
tracepro preamble's variable fields are the requested and generated counts). -/
inductive SubOut where
  | txtOut (hdr : RayLine) (rays : List RayLine)
  | traceproOut (requested generated : ℕ) (rays : List RayLine)
  | datOut (hdr : DatHeaderOut) (recs : List RayLine)
deriving DecidableEq

/-- The ray rows of an output document. -/
def outRays : SubOut → List RayLine
  | .txtOut _ rs => rs
  | .traceproOut _ _ rs => rs
  | .datOut _ rs => rs

/-- How a scaled ray appears as an output row of each format: the ASCII format
writes the scaled ray as is, the tracepro and binary formats re-sanitize the
flux at write time. -/
def outView : SubFormat → RayLine → RayLine
  | .txt => id
  | .tracepro => writeRow
  | .dat => writeRow

/-- Python `int(token)`: succeeds exactly on integer literals. -/
def pyIntTok (q : ℚ) : Except SubErr ℤ :=
  if q.den = 1 then .ok q.num else .error .invalidField

/-- `SubsampleWorker.run` as a pure function (source lines 128–255): locate the
header line, collect the 7-token ray pool, check the pool against the target,
sample, scale each flux by `declared_ray_count / target`, and build the chosen
output document. -/
def subsampleRun (binOf : RayLine → BinKey) (sampler : List RayLine → ℕ → List RayLine)
    (lines : List RayLine) (kT : ℕ) (method : SubMethod) (fmt : SubFormat) :
    Except SubErr SubOut :=
  match lines.findIdx? isHeaderLine with
  | none => .error .noHeaderFound
  | some hi =>
    let hdr := lines.getD hi []
    let pool := rayPoolAt lines hi
    if pool.length < kT then .error (.insufficientRays pool.length)
    else
      let sampled := selectRays binOf sampler pool kT method
      let declared := (hdr.getD 0 0).num.toNat
      let scale : ℚ := (declared : ℚ) / (kT : ℚ)
      let rayData := sampled.map (scaleRay scale)
      let sumFlux : ℚ := (rayData.map fun r => r.getD 6 0).sum
      let newHdr := hdr.set 0 (kT : ℚ)
      match fmt with
      | .txt => .ok (.txtOut newHdr rayData)
      | .tracepro => .ok (.traceproOut declared kT (rayData.map writeRow))
      | .dat =>
        match pyIntTok (hdr.getD 1 0), pyIntTok (hdr.getD 2 0), pyIntTok (hdr.getD 3 0) with
        | .ok du, .ok rft, .ok ft =>
          .ok (.datOut
            ⟨8675309, kT, descriptionLit, sumFlux, sumFlux, 0, 0, 0, 0, 0, du,
              0, 0, 0, 0, 0, 0, 1, 1, 1, 0, 0, 0, 0, rft, ft, 0, 0⟩
            (rayData.map writeRow))
        | _, _, _ => .error .invalidField

/-! ### The geometric bin key of the source prepass -/

/-- Python `math.atan2`. -/
noncomputable def atan2R (y x : ℝ) : ℝ :=
  if 0 < x then Real.arctan (y / x)
  else if x < 0 ∧ 0 ≤ y then Real.arctan (y / x) + Real.pi
  else if x < 0 ∧ y < 0 then Real.arctan (y / x) - Real.pi
  else if 0 < y then Real.pi / 2
  else if y < 0 then -(Real.pi / 2)
  else 0

/-- The (θ, φ) bin key computed in the prepass (source lines 280–297):
normalize the direction with the `1e-12` length floor, clamp `n` to `[-1, 1]`,
`θ = arccos n`, `φ = atan2 m l`, then map to the 90 × 180 grid.  Python's
`int(...)` truncation composed with the `max 0` clamp equals `⌊·⌋` composed
with the same clamp. -/
noncomputable def geomBinOf (line : RayLine) : BinKey :=
  let l : ℝ := (line.getD 3 0 : ℚ)
  let m : ℝ := (line.getD 4 0 : ℚ)
  let n : ℝ := (line.getD 5 0 : ℚ)
  let lenDir : ℝ := max (1 / 10 ^ 12) (Real.sqrt (l * l + m * m + n * n))
  let l := l / lenDir
  let m := m / lenDir
  let n := n / lenDir
  let n := if 1 < n then 1 else if n < -1 then -1 else n
  let theta := Real.arccos n
  let phi := atan2R m l
  let ti := min 89 (max 0 ⌊theta / Real.pi * 90⌋)
  let phiNorm := (phi + Real.pi) / (2 * Real.pi)
  let pj := min 179 (max 0 ⌊phiNorm * 180⌋)
  (ti.toNat, pj.toNat)

/-- Largest quota of an allocation. -/
def maxA (a : Alloc) : ℕ := (a.map Prod.snd).foldr max 0

/-- Modelled from the spec's words for the reconciliation step (used only to
compare the code against the spec's description): one step decrements the
quota of a currently-largest-quota bin, keeps every quota ≥ 1, and runs only
while the sum still exceeds the target.  The reflexive-transitive closure of
this relation is everything the spec's "repeatedly decrement the
currently-largest-quota bin" procedure can do. -/
inductive SpecDecStep (kT : ℕ) : Alloc → Alloc → Prop where
  | step (a : Alloc) (k : BinKey) (hk : k ∈ a.map Prod.fst) (hsum : kT < sumA a)
      (hmax : ∀ p ∈ a, p.2 ≤ lookupA a k) (h1 : 1 < lookupA a k) :
      SpecDecStep kT a (updateA a k (lookupA a k - 1))

/-! ### Concrete inputs used to instantiate the theorems -/

/-- A minimal well-formed binary file: identifier 1010, one all-zero 7-float
record, every other field zero. -/
def wBytes : List ℕ := [242, 3, 0, 0, 1, 0, 0, 0] ++ List.replicate 228 0

/-- A bin-key function used to instantiate the parametric sampling theorems:
the key is read off token 3. -/
def tokKey (l : RayLine) : BinKey := ((l.getD 3 0).num.toNat, 0)

/-- A deterministic instance of the `random.sample` oracle: take the first `n`
elements.  It satisfies both oracle assumptions (result length `n`, elements
drawn from the pool). -/
def takeSampler (l : List RayLine) (n : ℕ) : List RayLine := l.take n

/-- Three 7-token rays that land in three distinct bins under `tokKey`. -/
def pool3 : List RayLine := [[0, 0, 0, 1, 0, 0, 1], [0, 0, 0, 2, 0, 0, 1], [0, 0, 0, 3, 0, 0, 1]]

/-- A small ASCII ray file: a header line declaring 5 rays, then the three rays
of `pool3` (so the declared count differs from the actual pool size). -/
def wLines : List RayLine := [[5, 1, 0, 0]] ++ pool3

/-- Three rays along +z, +x and −z: they land in the three distinct angular
bins (0, 90), (45, 90) and (89, 90) of the source's 90 × 180 grid. -/
def c2geoPool : List RayLine :=
  [[0, 0, 0, 0, 0, 1, 1], [0, 0, 0, 1, 0, 0, 1], [0, 0, 0, 0, 0, -1, 1]]

/-- The bins the prepass builds from `c2geoPool`. -/
def c2bins : List RayBin :=
  [⟨(0, 90), [[0, 0, 0, 0, 0, 1, 1]], 1⟩, ⟨(45, 90), [[0, 0, 0, 1, 0, 0, 1]], 1⟩,
    ⟨(89, 90), [[0, 0, 0, 0, 0, -1, 1]], 1⟩]

/-- Fourteen rays in six distinct angular bins: six rays along +z with flux
summing to 56, four along +x summing to 40, and four lone rays (−z, −x, +y,
−y) of flux 1 each — total flux 100. -/
def c6geoPool : List RayLine :=
  [[0, 0, 0, 0, 0, 1, 10], [0, 0, 0, 0, 0, 1, 10], [0, 0, 0, 0, 0, 1, 10],
    [0, 0, 0, 0, 0, 1, 10], [0, 0, 0, 0, 0, 1, 10], [0, 0, 0, 0, 0, 1, 6],
    [0, 0, 0, 1, 0, 0, 10], [0, 0, 0, 1, 0, 0, 10], [0, 0, 0, 1, 0, 0, 10],
    [0, 0, 0, 1, 0, 0, 10],
    [0, 0, 0, 0, 0, -1, 1], [0, 0, 0, -1, 0, 0, 1], [0, 0, 0, 0, 1, 0, 1],
    [0, 0, 0, 0, -1, 0, 1]]

/-- The bins the prepass builds from `c6geoPool`. -/
def c6bins : List RayBin :=
  [⟨(0, 90), [[0, 0, 0, 0, 0, 1, 10], [0, 0, 0, 0, 0, 1, 10], [0, 0, 0, 0, 0, 1, 10],
      [0, 0, 0, 0, 0, 1, 10], [0, 0, 0, 0, 0, 1, 10], [0, 0, 0, 0, 0, 1, 6]], 56⟩,
    ⟨(45, 90), [[0, 0, 0, 1, 0, 0, 10], [0, 0, 0, 1, 0, 0, 10], [0, 0, 0, 1, 0, 0, 10],
      [0, 0, 0, 1, 0, 0, 10]], 40⟩,
    ⟨(89, 90), [[0, 0, 0, 0, 0, -1, 1]], 1⟩,
    ⟨(45, 179), [[0, 0, 0, -1, 0, 0, 1]], 1⟩,
    ⟨(45, 135), [[0, 0, 0, 0, 1, 0, 1]], 1⟩,
    ⟨(45, 45), [[0, 0, 0, 0, -1, 0, 1]], 1⟩]

/-- The quotas allocated from `c6bins` at target 10 (sum 14). -/
def c6alloc0 : Alloc :=
  [((0, 90), 6), ((45, 90), 4), ((89, 90), 1), ((45, 179), 1), ((45, 135), 1), ((45, 45), 1)]

/-- The quotas after the code's decrement reconciliation of `c6alloc0` at
target 10: the first-visited largest bin was drained from 6 to 2 while the
second bin kept quota 4. -/
def c6allocFinal : Alloc :=
  [((0, 90), 2), ((45, 90), 4), ((89, 90), 1), ((45, 179), 1), ((45, 135), 1), ((45, 45), 1)]

/-! ### Helper lemmas -/

theorem pyIntTok_ok {q : ℚ} {z : ℤ} (h : pyIntTok q = .ok z) : q = (z : ℚ) := by
  unfold pyIntTok at h
  split_ifs at h with hd
  have hz : q.num = z := by injection h
  rw [← hz]
  exact ((Rat.den_eq_one_iff q).mp hd).symm

theorem lookupA_cons (p : BinKey × ℕ) (a : Alloc) (k : BinKey) :
    lookupA (p :: a) k = if p.1 = k then p.2 else lookupA a k := by
  by_cases h : p.1 = k <;> simp [lookupA, List.find?_cons, h]

theorem updateA_map_fst (a : Alloc) (k : BinKey) (v : ℕ) :
    (updateA a k v).map Prod.fst = a.map Prod.fst := by
  unfold updateA
  rw [List.map_map]
  refine List.map_congr_left fun p _ => ?_
  by_cases h : p.1 = k <;> simp [h]

theorem updateA_not_mem {a : Alloc} {k : BinKey} (h : k ∉ a.map Prod.fst) (v : ℕ) :
    updateA a k v = a := by
  unfold updateA
  conv_rhs => rw [← List.map_id a]
  refine List.map_congr_left fun p hp => ?_
  have : p.1 ≠ k := fun he => h (he ▸ List.mem_map_of_mem Prod.fst hp)
  simp [this]

theorem lookupA_updateA_self {a : Alloc} {k : BinKey} (h : k ∈ a.map Prod.fst) (v : ℕ) :
    lookupA (updateA a k v) k = v := by
  induction a with
  | nil => simp at h
  | cons p a ih =>
    by_cases hp : p.1 = k
    · simp [updateA, lookupA_cons, hp]
    · have hk : k ∈ a.map Prod.fst := by
        rcases List.mem_cons.mp h with h' | h'
        · exact absurd h'.symm hp
        · exact h'
      simpa [updateA, lookupA_cons, hp] using ih hk

theorem lookupA_updateA_ne {k k' : BinKey} (hne : k' ≠ k) (a : Alloc) (v : ℕ) :
    lookupA (updateA a k v) k' = lookupA a k' := by
  induction a with
  | nil => rfl
  | cons p a ih =>
    have hstep : updateA (p :: a) k v = (if p.1 = k then (p.1, v) else p) :: updateA a k v := rfl
    rw [hstep]
    by_cases hp : p.1 = k
    · have h1 : p.1 ≠ k' := fun he => hne (hp.symm.trans he).symm
      rw [if_pos hp, lookupA_cons, lookupA_cons, if_neg h1, if_neg h1]
      exact ih
    · rw [if_neg hp, lookupA_cons, lookupA_cons]
      by_cases hp' : p.1 = k'
      · rw [if_pos hp', if_pos hp']
      · rw [if_neg hp', if_neg hp']
        exact ih

theorem sumA_cons (p : BinKey × ℕ) (a : Alloc) : sumA (p :: a) = p.2 + sumA a := by
  simp [sumA]

theorem lookupA_of_mem {a : Alloc} (hnd : (a.map Prod.fst).Nodup) {p : BinKey × ℕ}
    (h : p ∈ a) : lookupA a p.1 = p.2 := by
  induction a with
  | nil => simp at h
  | cons q a ih =>
    rw [List.map_cons, List.nodup_cons] at hnd
    rcases List.mem_cons.mp h with rfl | h'
    · simp [lookupA_cons]
    · have hq : q.1 ≠ p.1 := fun he => hnd.1 (he ▸ List.mem_map_of_mem Prod.fst h')
      rw [lookupA_cons, if_neg hq]
      exact ih hnd.2 h'

theorem lookupA_mem {a : Alloc} {k : BinKey} (h : k ∈ a.map Prod.fst) :
    (k, lookupA a k) ∈ a := by
  induction a with
  | nil => simp at h
  | cons p a ih =>
    by_cases hp : p.1 = k
    · subst hp
      simp [lookupA_cons]
    · have hk : k ∈ a.map Prod.fst := by
        rcases List.mem_cons.mp h with h' | h'
        · exact absurd h'.symm hp
        · exact h'
      rw [lookupA_cons, if_neg hp]
      exact List.mem_cons_of_mem _ (ih hk)

theorem mem_updateA {a : Alloc} {k : BinKey} {v : ℕ} {p : BinKey × ℕ}
    (h : p ∈ updateA a k v) : p ∈ a ∨ (p.1 = k ∧ p.2 = v) := by
  unfold updateA at h
  rcases List.mem_map.mp h with ⟨q, hq, he⟩
  by_cases hqk : q.1 = k
  · rw [if_pos hqk] at he
    right
    rw [← he]
    exact ⟨hqk, rfl⟩
  · rw [if_neg hqk] at he
    exact Or.inl (he ▸ hq)

theorem sumA_updateA {a : Alloc} {k : BinKey} (hnd : (a.map Prod.fst).Nodup)
    (h : k ∈ a.map Prod.fst) (v : ℕ) :
    sumA (updateA a k v) + lookupA a k = sumA a + v := by
  induction a with
  | nil => simp at h
  | cons p a ih =>
    rw [List.map_cons, List.nodup_cons] at hnd
    by_cases hp : p.1 = k
    · subst hp
      have hupd : updateA (p :: a) p.1 v = (p.1, v) :: a := by
        show (if p.1 = p.1 then (p.1, v) else p) :: updateA a p.1 v = _
        rw [if_pos rfl, updateA_not_mem hnd.1]
      rw [hupd, sumA_cons, sumA_cons, lookupA_cons, if_pos rfl]
      omega
    · have hk : k ∈ a.map Prod.fst := by
        rcases List.mem_cons.mp h with h' | h'
        · exact absurd h'.symm hp
        · exact h'
      have hupd : updateA (p :: a) k v = p :: updateA a k v := by
        show (if p.1 = k then (p.1, v) else p) :: updateA a k v = _
        rw [if_neg hp]
      rw [hupd, sumA_cons, sumA_cons, lookupA_cons, if_neg hp]
      have := ih hnd.2 hk
      omega

theorem updateA_lookupA_self {a : Alloc} {k : BinKey} (hnd : (a.map Prod.fst).Nodup) :
    updateA a k (lookupA a k) = a := by
  by_cases h : k ∈ a.map Prod.fst
  · induction a with
    | nil => rfl
    | cons p a ih =>
      rw [List.map_cons, List.nodup_cons] at hnd
      by_cases hp : p.1 = k
      · subst hp
        have hstep : updateA (p :: a) p.1 (lookupA (p :: a) p.1)
            = (p.1, lookupA (p :: a) p.1) :: updateA a p.1 (lookupA (p :: a) p.1) := by
          show (if p.1 = p.1 then _ else p) :: _ = _
          rw [if_pos rfl]
          rfl
        rw [hstep, updateA_not_mem hnd.1, lookupA_cons, if_pos rfl]
      · have hk : k ∈ a.map Prod.fst := by
          rcases List.mem_cons.mp h with h' | h'
          · exact absurd h'.symm hp
          · exact h'
        have hstep : updateA (p :: a) k (lookupA (p :: a) k)
            = p :: updateA a k (lookupA (p :: a) k) := by
          show (if p.1 = k then (p.1, _) else p) :: _ = _
          rw [if_neg hp]
          rfl
        rw [hstep, lookupA_cons, if_neg hp, ih hnd.2 hk]
  · exact updateA_not_mem h _

theorem sumA_all_one {a : Alloc} (h : ∀ p ∈ a, p.2 = 1) : sumA a = a.length := by
  induction a with
  | nil => rfl
  | cons p a ih =>
    rw [sumA_cons, h p (List.mem_cons_self p a), ih fun q hq => h q (List.mem_cons_of_mem p hq),
      List.length_cons]
    omega

theorem length_le_sumA {a : Alloc} (h : ∀ p ∈ a, 1 ≤ p.2) : a.length ≤ sumA a := by
  induction a with
  | nil => simp [sumA]
  | cons p a ih =>
    rw [sumA_cons, List.length_cons]
    have h1 := h p (List.mem_cons_self p a)
    have h2 := ih fun q hq => h q (List.mem_cons_of_mem p hq)
    omega

theorem sumA_eq_sum_lookup {a : Alloc} (hnd : (a.map Prod.fst).Nodup) :
    sumA a = ((a.map Prod.fst).map (lookupA a)).sum := by
  induction a with
  | nil => rfl
  | cons p a ih =>
    rw [List.map_cons, List.nodup_cons] at hnd
    rw [sumA_cons, List.map_cons, List.map_cons, List.sum_cons, lookupA_cons, if_pos rfl,
      ih hnd.2]
    refine congrArg (p.2 + ·) (congrArg List.sum (List.map_congr_left fun k hk => ?_))
    have h1 : p.1 ≠ k := fun he => hnd.1 (he ▸ hk)
    exact (by rw [lookupA_cons, if_neg h1] : lookupA (p :: a) k = lookupA a k).symm

theorem insAfterGE_perm (f : BinKey → ℕ) (k : BinKey) (l : List BinKey) :
    (insAfterGE f k l).Perm (k :: l) := by
  induction l with
  | nil => exact List.Perm.refl _
  | cons x xs ih =>
    unfold insAfterGE
    split_ifs
    · exact (ih.cons x).trans (List.Perm.swap k x xs)
    · exact List.Perm.refl _

theorem sortByDesc_perm (f : BinKey → ℕ) (l : List BinKey) : (sortByDesc f l).Perm l := by
  have key : ∀ (l : List BinKey) (acc : List BinKey),
      (l.foldl (fun acc k => insAfterGE f k acc) acc).Perm (acc ++ l) := by
    intro l
    induction l with
    | nil => intro acc; simp
    | cons x xs ih =>
      intro acc
      refine (ih (insAfterGE f x acc)).trans ?_
      refine (List.Perm.append_right xs (insAfterGE_perm f x acc)).trans ?_
      exact List.perm_middle.symm
  simpa using key l []

theorem insertRay_keys_mem {bs : List RayBin} {k : BinKey} (h : k ∈ binsKeys bs)
    (l : RayLine) (f : ℚ) : binsKeys (insertRay bs k l f) = binsKeys bs := by
  induction bs with
  | nil => simp [binsKeys] at h
  | cons b bs ih =>
    by_cases hb : b.key = k
    · simp [insertRay, hb, binsKeys]
    · have hk : k ∈ binsKeys bs := by
        rcases List.mem_cons.mp h with h' | h'
        · exact absurd h'.symm hb
        · exact h'
      simp only [insertRay, if_neg hb, binsKeys, List.map_cons]
      rw [show (insertRay bs k l f).map RayBin.key = binsKeys (insertRay bs k l f) from rfl,
        ih hk]
      rfl

theorem insertRay_keys_not_mem {bs : List RayBin} {k : BinKey} (h : k ∉ binsKeys bs)
    (l : RayLine) (f : ℚ) : binsKeys (insertRay bs k l f) = binsKeys bs ++ [k] := by
  induction bs with
  | nil => rfl
  | cons b bs ih =>
    have hb : b.key ≠ k := fun he => h (he ▸ List.mem_cons_self _ _)
    have hk : k ∉ binsKeys bs := fun hm => h (List.mem_cons_of_mem _ hm)
    simp only [insertRay, if_neg hb, binsKeys, List.map_cons]
    rw [show (insertRay bs k l f).map RayBin.key = binsKeys (insertRay bs k l f) from rfl, ih hk]
    rfl

theorem insertRay_keys_nodup {bs : List RayBin} (hnd : (binsKeys bs).Nodup) (k : BinKey)
    (l : RayLine) (f : ℚ) : (binsKeys (insertRay bs k l f)).Nodup := by
  by_cases h : k ∈ binsKeys bs
  · rw [insertRay_keys_mem h]
    exact hnd
  · rw [insertRay_keys_not_mem h]
    simp [List.nodup_append, hnd, h]

theorem insertRay_countTotal (bs : List RayBin) (k : BinKey) (l : RayLine) (f : ℚ) :
    countTotal (insertRay bs k l f) = countTotal bs + 1 := by
  induction bs with
  | nil => simp [insertRay, countTotal]
  | cons b bs ih =>
    by_cases hb : b.key = k
    · simp [insertRay, hb, countTotal]
      omega
    · simp only [insertRay, if_neg hb, countTotal, List.map_cons, List.sum_cons]
      rw [show ((insertRay bs k l f).map fun b => b.lns.length).sum
        = countTotal (insertRay bs k l f) from rfl, ih]
      simp [countTotal]
      omega

theorem insertRay_lns {bs : List RayBin} {k : BinKey} {l : RayLine} {f : ℚ} {b : RayBin}
    (hb : b ∈ insertRay bs k l f) :
    (b.lns ≠ [] ∧ ∀ x ∈ b.lns, (∃ b' ∈ bs, x ∈ b'.lns) ∨ x = l) ∨ b ∈ bs := by
  induction bs with
  | nil =>
    simp [insertRay] at hb
    subst hb
    exact Or.inl ⟨by simp, by simp⟩
  | cons c bs ih =>
    by_cases hc : c.key = k
    · simp only [insertRay, if_pos hc] at hb
      rcases List.mem_cons.mp hb with rfl | hb'
      · refine Or.inl ⟨by simp, fun x hx => ?_⟩
        rcases List.mem_append.mp hx with hx' | hx'
        · exact Or.inl ⟨c, List.mem_cons_self _ _, hx'⟩
        · simp at hx'
          exact Or.inr hx'
      · exact Or.inr (List.mem_cons_of_mem _ hb')
    · simp only [insertRay, if_neg hc] at hb
      rcases List.mem_cons.mp hb with rfl | hb'
      · exact Or.inr (List.mem_cons_self _ _)
      · rcases ih hb' with ⟨h1, h2⟩ | h'
        · refine Or.inl ⟨h1, fun x hx => ?_⟩
          rcases h2 x hx with ⟨b', hb', hx'⟩ | hx'
          · exact Or.inl ⟨b', List.mem_cons_of_mem _ hb', hx'⟩
          · exact Or.inr hx'
        · exact Or.inr (List.mem_cons_of_mem _ h')

theorem insertRay_ne_nil (bs : List RayBin) (k : BinKey) (l : RayLine) (f : ℚ) :
    insertRay bs k l f ≠ [] := by
  cases bs with
  | nil => simp [insertRay]
  | cons b bs =>
    by_cases hb : b.key = k <;> simp [insertRay, hb]

theorem buildBins_go (binOf : RayLine → BinKey) (ls : List RayLine) :
    ∀ bs : List RayBin,
      ((binsKeys bs).Nodup → (binsKeys (ls.foldl (addToBins binOf) bs)).Nodup) ∧
      ((∀ l ∈ ls, l.length = 7) →
        countTotal (ls.foldl (addToBins binOf) bs) = countTotal bs + ls.length) ∧
      (∀ b ∈ ls.foldl (addToBins binOf) bs,
        ((b.lns ≠ [] ∧ ∀ x ∈ b.lns, (∃ b' ∈ bs, x ∈ b'.lns) ∨ x ∈ ls) ∨ b ∈ bs)) := by
  induction ls with
  | nil => exact fun bs => ⟨fun h => h, fun _ => by simp, fun b hb => Or.inr hb⟩
  | cons l ls ih =>
    intro bs
    refine ⟨fun hnd => ?_, fun h7 => ?_, fun b hb => ?_⟩
    · refine (ih (addToBins binOf bs l)).1 ?_
      unfold addToBins
      split_ifs
      · exact insertRay_keys_nodup hnd _ _ _
      · exact hnd
    · have h7l : l.length = 7 := h7 l (List.mem_cons_self _ _)
      have h7s : ∀ x ∈ ls, x.length = 7 := fun x hx => h7 x (List.mem_cons_of_mem _ hx)
      rw [List.foldl_cons, (ih (addToBins binOf bs l)).2.1 h7s]
      unfold addToBins
      rw [if_pos h7l, insertRay_countTotal]
      simp
      omega
    · rw [List.foldl_cons] at hb
      rcases (ih (addToBins binOf bs l)).2.2 b hb with ⟨h1, h2⟩ | h'
      · refine Or.inl ⟨h1, fun x hx => ?_⟩
        rcases h2 x hx with ⟨b', hb', hx'⟩ | hx'
        · unfold addToBins at hb'
          split_ifs at hb' with h7
          · rcases insertRay_lns hb' with ⟨_, h3⟩ | hmem
            · rcases h3 x hx' with ⟨b'', hb'', hx''⟩ | hx''
              · exact Or.inl ⟨b'', hb'', hx''⟩
              · exact Or.inr (hx'' ▸ List.mem_cons_self _ _)
            · exact Or.inl ⟨b', hmem, hx'⟩
          · exact Or.inl ⟨b', hb', hx'⟩
        · exact Or.inr (List.mem_cons_of_mem _ hx')
      · unfold addToBins at h'
        split_ifs at h' with h7
        · rcases insertRay_lns h' with ⟨h1, h2⟩ | hmem
          · refine Or.inl ⟨h1, fun x hx => ?_⟩
            rcases h2 x hx with ⟨b', hb', hx'⟩ | hx'
            · exact Or.inl ⟨b', hb', hx'⟩
            · exact Or.inr (hx' ▸ List.mem_cons_self _ _)
          · exact Or.inr hmem
        · exact Or.inr h'

theorem buildBins_keys_nodup (binOf : RayLine → BinKey) (pool : List RayLine) :
    (binsKeys (buildBins binOf pool)).Nodup :=
  (buildBins_go binOf pool []).1 (by simp [binsKeys])

theorem buildBins_countTotal (binOf : RayLine → BinKey) {pool : List RayLine}
    (h7 : ∀ l ∈ pool, l.length = 7) :
    countTotal (buildBins binOf pool) = pool.length := by
  have := (buildBins_go binOf pool []).2.1 h7
  simpa [countTotal] using this

theorem buildBins_mem (binOf : RayLine → BinKey) {pool : List RayLine} {b : RayBin}
    (hb : b ∈ buildBins binOf pool) : b.lns ≠ [] ∧ ∀ x ∈ b.lns, x ∈ pool := by
  rcases (buildBins_go binOf pool []).2.2 b hb with ⟨h1, h2⟩ | h'
  · refine ⟨h1, fun x hx => ?_⟩
    rcases h2 x hx with ⟨b', hb', _⟩ | hx'
    · simp at hb'
    · exact hx'
  · simp at h'

theorem buildBins_ne_nil (binOf : RayLine → BinKey) {pool : List RayLine}
    (h7 : ∀ l ∈ pool, l.length = 7) (hne : pool ≠ []) :
    buildBins binOf pool ≠ [] := by
  intro hemp
  have := buildBins_countTotal binOf h7
  rw [hemp] at this
  simp [countTotal] at this
  exact hne (List.length_eq_zero.mp this.symm)

theorem popOf_of_mem {bins : List RayBin} (hnd : (binsKeys bins).Nodup) {b : RayBin}
    (hb : b ∈ bins) : popOf bins b.key = b.lns.length := by
  induction bins with
  | nil => simp at hb
  | cons c bins ih =>
    rw [show binsKeys (c :: bins) = c.key :: binsKeys bins from rfl, List.nodup_cons] at hnd
    rcases List.mem_cons.mp hb with rfl | hb'
    · simp [popOf, List.find?_cons]
    · have hc : c.key ≠ b.key := fun he =>
        hnd.1 (he ▸ List.mem_map_of_mem RayBin.key hb')
      have : (c.key == b.key) = false := beq_false_of_ne hc
      simp only [popOf, List.find?_cons, this]
      exact ih hnd.2 hb'

/-- Keys of the initial allocation are the bin keys, in order. -/
theorem initAlloc_map_fst (kT : ℕ) (bins : List RayBin) :
    (initAlloc kT bins).map Prod.fst = binsKeys bins := by
  unfold initAlloc
  split_ifs <;> simp [binsKeys, List.map_map, Function.comp]

/-- Every initial quota lies in `[1, population]`. -/
theorem initAlloc_bounds (kT : ℕ) {bins : List RayBin} (hnd : (binsKeys bins).Nodup)
    (hne : ∀ b ∈ bins, b.lns ≠ []) :
    ∀ p ∈ initAlloc kT bins, 1 ≤ p.2 ∧ p.2 ≤ popOf bins p.1 := by
  intro p hp
  unfold initAlloc at hp
  split_ifs at hp <;>
  · rcases List.mem_map.mp hp with ⟨q, hq, rfl⟩
    rcases List.mem_map.mp hq with ⟨b, hb, rfl⟩
    have hpop : popOf bins b.key = b.lns.length := popOf_of_mem hnd hb
    have hbne : b.lns.length ≠ 0 := fun h => hne b hb (List.length_eq_zero.mp h)
    simp only [hpop]
    omega

theorem decFold_lookup_not_mem (kT : ℕ) {k : BinKey} :
    ∀ (ks : List BinKey) (s : Alloc × ℕ), k ∉ ks →
      lookupA (ks.foldl (decStep kT) s).1 k = lookupA s.1 k := by
  intro ks
  induction ks with
  | nil => exact fun s _ => rfl
  | cons k' ks ih =>
    intro s hk
    have h1 : k ∉ ks := fun h => hk (List.mem_cons_of_mem _ h)
    have h2 : k ≠ k' := fun h => hk (h ▸ List.mem_cons_self _ _)
    rw [List.foldl_cons, ih _ h1]
    exact lookupA_updateA_ne h2 _ _

theorem incFold_lookup_not_mem (kT : ℕ) (bins : List RayBin) {k : BinKey} :
    ∀ (ks : List BinKey) (s : Alloc × ℕ), k ∉ ks →
      lookupA (ks.foldl (incStep kT bins) s).1 k = lookupA s.1 k := by
  intro ks
  induction ks with
  | nil => exact fun s _ => rfl
  | cons k' ks ih =>
    intro s hk
    have h1 : k ∉ ks := fun h => hk (List.mem_cons_of_mem _ h)
    have h2 : k ≠ k' := fun h => hk (h ▸ List.mem_cons_self _ _)
    rw [List.foldl_cons, ih _ h1]
    exact lookupA_updateA_ne h2 _ _

/-- Once the running total has reached the target, the decrement pass changes
nothing further: every later drain amount is zero. -/
theorem decFold_at_target (kT : ℕ) :
    ∀ (ks : List BinKey) (a : Alloc), (a.map Prod.fst).Nodup →
      ks.foldl (decStep kT) (a, kT) = (a, kT) := by
  intro ks
  induction ks with
  | nil => exact fun a _ => rfl
  | cons k ks ih =>
    intro a hnd
    have hstep : decStep kT (a, kT) k = (a, kT) := by
      unfold decStep
      simp only [Nat.sub_self, Nat.min_zero, Nat.sub_zero]
      rw [updateA_lookupA_self hnd]
    rw [List.foldl_cons, hstep]
    exact ih a hnd

theorem incFold_at_target (kT : ℕ) (bins : List RayBin) :
    ∀ (ks : List BinKey) (a : Alloc), (a.map Prod.fst).Nodup →
      ks.foldl (incStep kT bins) (a, kT) = (a, kT) := by
  intro ks
  induction ks with
  | nil => exact fun a _ => rfl
  | cons k ks ih =>
    intro a hnd
    have hstep : incStep kT bins (a, kT) k = (a, kT) := by
      unfold incStep
      simp only [Nat.sub_self, Nat.min_zero, Nat.add_zero]
      rw [updateA_lookupA_self hnd]
    rw [List.foldl_cons, hstep]
    exact ih a hnd

/-- Invariants of the decrement pass: keys are preserved, every quota stays in
`[1, population]`, the running total tracks the quota sum and never drops below
the target, and at the end either the total equals the target or every visited
bin was drained to quota 1. -/
theorem decFold (kT : ℕ) (pop : BinKey → ℕ) :
    ∀ (ks : List BinKey) (a : Alloc) (t : ℕ),
      (a.map Prod.fst).Nodup → ks.Nodup → (∀ k ∈ ks, k ∈ a.map Prod.fst) →
      (∀ p ∈ a, 1 ≤ p.2 ∧ p.2 ≤ pop p.1) →
      t = sumA a → kT ≤ t →
      (ks.foldl (decStep kT) (a, t)).1.map Prod.fst = a.map Prod.fst ∧
      (∀ p ∈ (ks.foldl (decStep kT) (a, t)).1, 1 ≤ p.2 ∧ p.2 ≤ pop p.1) ∧
      (ks.foldl (decStep kT) (a, t)).2 = sumA (ks.foldl (decStep kT) (a, t)).1 ∧
      kT ≤ (ks.foldl (decStep kT) (a, t)).2 ∧
      ((ks.foldl (decStep kT) (a, t)).2 = kT ∨
        ∀ k ∈ ks, lookupA (ks.foldl (decStep kT) (a, t)).1 k = 1) := by
  intro ks
  induction ks with
  | nil =>
    intro a t hnd _ _ hbd ht hkT
    exact ⟨rfl, hbd, ht, hkT, Or.inr (by simp)⟩
  | cons k ks ih =>
    intro a t hnd hksnd hksm hbd ht hkT
    have hkm : k ∈ a.map Prod.fst := hksm k (List.mem_cons_self _ _)
    have hvm : (k, lookupA a k) ∈ a := lookupA_mem hkm
    have hv1 : 1 ≤ lookupA a k := (hbd _ hvm).1
    have hvp : lookupA a k ≤ pop k := (hbd _ hvm).2
    rw [List.nodup_cons] at hksnd
    set v := lookupA a k with hv
    set d := min (v - 1) (t - kT) with hd
    have hstep : (k :: ks).foldl (decStep kT) (a, t)
        = ks.foldl (decStep kT) (updateA a k (v - d), t - d) := by
      rw [List.foldl_cons]
      rfl
    have hnd' : ((updateA a k (v - d)).map Prod.fst).Nodup := by
      rw [updateA_map_fst]
      exact hnd
    have hmem' : ∀ k' ∈ ks, k' ∈ (updateA a k (v - d)).map Prod.fst := by
      intro k' hk'
      rw [updateA_map_fst]
      exact hksm k' (List.mem_cons_of_mem _ hk')
    have hbd' : ∀ p ∈ updateA a k (v - d), 1 ≤ p.2 ∧ p.2 ≤ pop p.1 := by
      intro p hp
      rcases mem_updateA hp with hp' | ⟨h1, h2⟩
      · exact hbd p hp'
      · constructor
        · omega
        · rw [h2, h1]
          omega
    have hsum' : t - d = sumA (updateA a k (v - d)) := by
      have := sumA_updateA hnd hkm (v - d)
      omega
    have hkT' : kT ≤ t - d := by omega
    have main := ih (updateA a k (v - d)) (t - d) hnd' hksnd.2 hmem' hbd' hsum' hkT'
    rw [updateA_map_fst] at main
    refine ⟨by rw [hstep]; exact main.1, by rw [hstep]; exact main.2.1,
      by rw [hstep]; exact main.2.2.1, by rw [hstep]; exact main.2.2.2.1, ?_⟩
    rw [hstep]
    by_cases hcase : v - 1 ≤ t - kT
    · rcases main.2.2.2.2 with hl | hr
      · exact Or.inl hl
      · refine Or.inr fun k' hk' => ?_
        rcases List.mem_cons.mp hk' with rfl | hk''
        · rw [decFold_lookup_not_mem kT ks _ hksnd.1,
            lookupA_updateA_self hkm]
          omega
        · exact hr k' hk''
    · have hdt : d = t - kT := by omega
      have htd : t - d = kT := by omega
      rw [htd, decFold_at_target kT ks _ hnd']
      exact Or.inl rfl

/-- Invariants of the increment pass, symmetric to `decFold`: at the end either
the total equals the target or every visited bin was filled to its population. -/
theorem incFold (kT : ℕ) (bins : List RayBin) :
    ∀ (ks : List BinKey) (a : Alloc) (t : ℕ),
      (a.map Prod.fst).Nodup → ks.Nodup → (∀ k ∈ ks, k ∈ a.map Prod.fst) →
      (∀ p ∈ a, 1 ≤ p.2 ∧ p.2 ≤ popOf bins p.1) →
      t = sumA a → t ≤ kT →
      (ks.foldl (incStep kT bins) (a, t)).1.map Prod.fst = a.map Prod.fst ∧
      (∀ p ∈ (ks.foldl (incStep kT bins) (a, t)).1, 1 ≤ p.2 ∧ p.2 ≤ popOf bins p.1) ∧
      (ks.foldl (incStep kT bins) (a, t)).2 = sumA (ks.foldl (incStep kT bins) (a, t)).1 ∧
      (ks.foldl (incStep kT bins) (a, t)).2 ≤ kT ∧
      ((ks.foldl (incStep kT bins) (a, t)).2 = kT ∨
        ∀ k ∈ ks, lookupA (ks.foldl (incStep kT bins) (a, t)).1 k = popOf bins k) := by
  intro ks
  induction ks with
  | nil =>
    intro a t hnd _ _ hbd ht hkT
    exact ⟨rfl, hbd, ht, hkT, Or.inr (by simp)⟩
  | cons k ks ih =>
    intro a t hnd hksnd hksm hbd ht hkT
    have hkm : k ∈ a.map Prod.fst := hksm k (List.mem_cons_self _ _)
    have hvm : (k, lookupA a k) ∈ a := lookupA_mem hkm
    have hv1 : 1 ≤ lookupA a k := (hbd _ hvm).1
    have hvp : lookupA a k ≤ popOf bins k := (hbd _ hvm).2
    rw [List.nodup_cons] at hksnd
    set v := lookupA a k with hv
    set d := min (popOf bins k - v) (kT - t) with hd
    have hstep : (k :: ks).foldl (incStep kT bins) (a, t)
        = ks.foldl (incStep kT bins) (updateA a k (v + d), t + d) := by
      rw [List.foldl_cons]
      rfl
    have hnd' : ((updateA a k (v + d)).map Prod.fst).Nodup := by
      rw [updateA_map_fst]
      exact hnd
    have hmem' : ∀ k' ∈ ks, k' ∈ (updateA a k (v + d)).map Prod.fst := by
      intro k' hk'
      rw [updateA_map_fst]
      exact hksm k' (List.mem_cons_of_mem _ hk')
    have hbd' : ∀ p ∈ updateA a k (v + d), 1 ≤ p.2 ∧ p.2 ≤ popOf bins p.1 := by
      intro p hp
      rcases mem_updateA hp with hp' | ⟨h1, h2⟩
      · exact hbd p hp'
      · constructor
        · omega
        · rw [h2, h1]
          omega
    have hsum' : t + d = sumA (updateA a k (v + d)) := by
      have := sumA_updateA hnd hkm (v + d)
      omega
    have hkT' : t + d ≤ kT := by omega
    have main := ih (updateA a k (v + d)) (t + d) hnd' hksnd.2 hmem' hbd' hsum' hkT'
    rw [updateA_map_fst] at main
    refine ⟨by rw [hstep]; exact main.1, by rw [hstep]; exact main.2.1,
      by rw [hstep]; exact main.2.2.1, by rw [hstep]; exact main.2.2.2.1, ?_⟩
    rw [hstep]
    by_cases hcase : popOf bins k - v ≤ kT - t
    · rcases main.2.2.2.2 with hl | hr
      · exact Or.inl hl
      · refine Or.inr fun k' hk' => ?_
        rcases List.mem_cons.mp hk' with rfl | hk''
        · rw [incFold_lookup_not_mem kT bins ks _ hksnd.1,
            lookupA_updateA_self hkm]
          omega
        · exact hr k' hk''
    · have htd : t + d = kT := by omega
      rw [htd, incFold_at_target kT bins ks _ hnd']
      exact Or.inl rfl

/-- After reconciliation the quota keys are still the bin keys, every quota is
in `[1, population]`, the running total is the quota sum, and that total is
`max target (number of non-empty bins)` whenever the pool is large enough. -/
theorem reconcile_spec (kT : ℕ) (bins : List RayBin)
    (hnd : (binsKeys bins).Nodup) (hne : ∀ b ∈ bins, b.lns ≠ [])
    (hpool : kT ≤ countTotal bins) :
    (reconcile kT bins (initAlloc kT bins)).1.map Prod.fst = binsKeys bins ∧
    (∀ p ∈ (reconcile kT bins (initAlloc kT bins)).1, 1 ≤ p.2 ∧ p.2 ≤ popOf bins p.1) ∧
    (reconcile kT bins (initAlloc kT bins)).2 = sumA (reconcile kT bins (initAlloc kT bins)).1 ∧
    (reconcile kT bins (initAlloc kT bins)).2 = max kT bins.length := by
  have hfst : (initAlloc kT bins).map Prod.fst = binsKeys bins := initAlloc_map_fst kT bins
  have hnd0 : ((initAlloc kT bins).map Prod.fst).Nodup := by rw [hfst]; exact hnd
  have hbd0 : ∀ p ∈ initAlloc kT bins, 1 ≤ p.2 ∧ p.2 ≤ popOf bins p.1 :=
    initAlloc_bounds kT hnd hne
  have hlen0 : (initAlloc kT bins).length = bins.length := by
    have := congrArg List.length hfst
    simpa [binsKeys] using this
  have hblen : bins.length ≤ sumA (initAlloc kT bins) := by
    have := length_le_sumA fun p hp => (hbd0 p hp).1
    omega
  have hsumpop : ∀ a : Alloc, a.map Prod.fst = binsKeys bins →
      (∀ k ∈ a.map Prod.fst, lookupA a k = popOf bins k) →
      (a.map Prod.fst).Nodup → sumA a = countTotal bins := by
    intro a hkeys hfill hand
    rw [sumA_eq_sum_lookup hand]
    rw [show (a.map Prod.fst).map (lookupA a) = (a.map Prod.fst).map (popOf bins) from
      List.map_congr_left fun k hk => hfill k hk]
    rw [hkeys]
    unfold binsKeys countTotal
    rw [List.map_map]
    refine congrArg List.sum (List.map_congr_left fun b hb => ?_)
    exact popOf_of_mem hnd hb
  unfold reconcile
  dsimp only
  split_ifs with h1 h2
  · -- decrement branch
    have hperm := sortByDesc_perm (fun k => lookupA (initAlloc kT bins) k)
      ((initAlloc kT bins).map Prod.fst)
    have hksnd : (sortByDesc (fun k => lookupA (initAlloc kT bins) k)
        ((initAlloc kT bins).map Prod.fst)).Nodup := hperm.nodup_iff.mpr hnd0
    have hksm : ∀ k ∈ sortByDesc (fun k => lookupA (initAlloc kT bins) k)
        ((initAlloc kT bins).map Prod.fst), k ∈ (initAlloc kT bins).map Prod.fst :=
      fun k hk => hperm.mem_iff.mp hk
    have main := decFold kT (popOf bins) _ (initAlloc kT bins) (sumA (initAlloc kT bins))
      hnd0 hksnd hksm hbd0 rfl (le_of_lt h1)
    refine ⟨by rw [main.1, hfst], main.2.1, main.2.2.1, ?_⟩
    have hrlen : (sortByDesc (fun k => lookupA (initAlloc kT bins) k)
        ((initAlloc kT bins).map Prod.fst)).foldl (decStep kT)
        (initAlloc kT bins, sumA (initAlloc kT bins)) |>.1.length = bins.length := by
      have := congrArg List.length main.1
      simp only [List.length_map] at this
      omega
    rcases main.2.2.2.2 with hl | hr
    · have : bins.length ≤ kT := by
        have h3 := main.2.2.1
        have h4 := length_le_sumA fun p hp => (main.2.1 p hp).1
        omega
      omega
    · have hall : ∀ p ∈ ((sortByDesc (fun k => lookupA (initAlloc kT bins) k)
          ((initAlloc kT bins).map Prod.fst)).foldl (decStep kT)
          (initAlloc kT bins, sumA (initAlloc kT bins))).1, p.2 = 1 := by
        intro p hp
        have hk : p.1 ∈ (initAlloc kT bins).map Prod.fst := by
          rw [← main.1]
          exact List.mem_map_of_mem Prod.fst hp
        have hnd1 : (((sortByDesc (fun k => lookupA (initAlloc kT bins) k)
            ((initAlloc kT bins).map Prod.fst)).foldl (decStep kT)
            (initAlloc kT bins, sumA (initAlloc kT bins))).1.map Prod.fst).Nodup := by
          rw [main.1]
          exact hnd0
        rw [← lookupA_of_mem hnd1 hp]
        exact hr p.1 (hperm.mem_iff.mpr hk)
      have hsum1 := sumA_all_one hall
      have h3 := main.2.2.1
      have h4 := main.2.2.2.1
      omega
  · -- increment branch
    have hperm := sortByDesc_perm
      (fun k => popOf bins k - lookupA (initAlloc kT bins) k)
      ((initAlloc kT bins).map Prod.fst)
    have hksnd : (sortByDesc (fun k => popOf bins k - lookupA (initAlloc kT bins) k)
        ((initAlloc kT bins).map Prod.fst)).Nodup := hperm.nodup_iff.mpr hnd0
    have hksm : ∀ k ∈ sortByDesc (fun k => popOf bins k - lookupA (initAlloc kT bins) k)
        ((initAlloc kT bins).map Prod.fst), k ∈ (initAlloc kT bins).map Prod.fst :=
      fun k hk => hperm.mem_iff.mp hk
    have main := incFold kT bins _ (initAlloc kT bins) (sumA (initAlloc kT bins))
      hnd0 hksnd hksm hbd0 rfl (le_of_lt h2)
    have hfin : ((sortByDesc (fun k => popOf bins k - lookupA (initAlloc kT bins) k)
        ((initAlloc kT bins).map Prod.fst)).foldl (incStep kT bins)
        (initAlloc kT bins, sumA (initAlloc kT bins))).2 = kT := by
      rcases main.2.2.2.2 with hl | hr
      · exact hl
      · have hfill : ∀ k ∈ ((sortByDesc (fun k => popOf bins k -
            lookupA (initAlloc kT bins) k) ((initAlloc kT bins).map Prod.fst)).foldl
            (incStep kT bins) (initAlloc kT bins, sumA (initAlloc kT bins))).1.map Prod.fst,
            lookupA ((sortByDesc (fun k => popOf bins k - lookupA (initAlloc kT bins) k)
              ((initAlloc kT bins).map Prod.fst)).foldl (incStep kT bins)
              (initAlloc kT bins, sumA (initAlloc kT bins))).1 k = popOf bins k := by
          intro k hk
          rw [main.1] at hk
          exact hr k (hperm.mem_iff.mpr hk)
        have hnd1 := main.1 ▸ hnd0
        have := hsumpop _ (main.1.trans hfst) (fun k hk => hfill k hk) hnd1
        have h3 := main.2.2.1
        have h4 := main.2.2.2.1
        omega
    refine ⟨by rw [main.1, hfst], main.2.1, main.2.2.1, ?_⟩
    rw [hfin]
    have : bins.length ≤ kT := by omega
    omega
  · -- already equal
    have heq : sumA (initAlloc kT bins) = kT := by omega
    refine ⟨hfst, hbd0, rfl, ?_⟩
    have : bins.length ≤ kT := by omega
    omega

theorem pickBins_length (sampler : List RayLine → ℕ → List RayLine)
    (hs : ∀ l n, n ≤ l.length → (sampler l n).length = n) (bins : List RayBin) (a : Alloc)
    (hb : ∀ b ∈ bins, lookupA a b.key ≤ b.lns.length) :
    (pickBins sampler bins a).length = (bins.map fun b => lookupA a b.key).sum := by
  have aux : ∀ (bs : List RayBin), (∀ b ∈ bs, lookupA a b.key ≤ b.lns.length) →
      ∀ acc : List RayLine,
      (bs.foldl (fun acc b =>
        let k := lookupA a b.key
        if k = 0 then acc
        else if b.lns.length ≤ k then acc ++ b.lns
        else acc ++ sampler b.lns k) acc).length
        = acc.length + (bs.map fun b => lookupA a b.key).sum := by
    intro bs
    induction bs with
    | nil => intro _ acc; simp
    | cons b bs ih =>
      intro hbs acc
      have hble := hbs b (List.mem_cons_self _ _)
      have htl := fun b' hb' => hbs b' (List.mem_cons_of_mem _ hb')
      rw [List.foldl_cons, List.map_cons, List.sum_cons]
      dsimp only
      by_cases h0 : lookupA a b.key = 0
      · rw [if_pos h0, ih htl acc, h0]
        omega
      · rw [if_neg h0]
        by_cases hcap : b.lns.length ≤ lookupA a b.key
        · rw [if_pos hcap, ih htl _, List.length_append]
          have : b.lns.length = lookupA a b.key := le_antisymm hcap hble
          omega
        · rw [if_neg hcap, ih htl _, List.length_append,
            hs b.lns (lookupA a b.key) (le_of_not_le hcap)]
          omega
  exact (aux bins hb []).trans (by simp)

theorem pickBins_subset (sampler : List RayLine → ℕ → List RayLine)
    (hmem : ∀ l n x, x ∈ sampler l n → x ∈ l) (bins : List RayBin) (a : Alloc) :
    ∀ x ∈ pickBins sampler bins a, ∃ b ∈ bins, x ∈ b.lns := by
  have aux : ∀ (bs : List RayBin) (acc : List RayLine),
      ∀ x ∈ (bs.foldl (fun acc b =>
        let k := lookupA a b.key
        if k = 0 then acc
        else if b.lns.length ≤ k then acc ++ b.lns
        else acc ++ sampler b.lns k) acc),
        x ∈ acc ∨ ∃ b ∈ bs, x ∈ b.lns := by
    intro bs
    induction bs with
    | nil => intro acc x hx; exact Or.inl hx
    | cons b bs ih =>
      intro acc x hx
      rw [List.foldl_cons] at hx
      have step : ∀ y ∈ (let k := lookupA a b.key
          if k = 0 then acc
          else if b.lns.length ≤ k then acc ++ b.lns
          else acc ++ sampler b.lns k), y ∈ acc ∨ y ∈ b.lns := by
        intro y hy
        dsimp only at hy
        split_ifs at hy with h0 hcap
        · exact Or.inl hy
        · rcases List.mem_append.mp hy with h | h
          · exact Or.inl h
          · exact Or.inr h
        · rcases List.mem_append.mp hy with h | h
          · exact Or.inl h
          · exact Or.inr (hmem b.lns (lookupA a b.key) y h)
      rcases ih _ x hx with h | ⟨b', hb', hx'⟩
      · rcases step x h with h' | h'
        · exact Or.inl h'
        · exact Or.inr ⟨b, List.mem_cons_self _ _, h'⟩
      · exact Or.inr ⟨b', List.mem_cons_of_mem _ hb', hx'⟩
  intro x hx
  rcases aux bins [] x hx with h | h
  · simp at h
  · exact h

theorem sum_lookup_over_bins {bins : List RayBin} {a : Alloc}
    (hfst : a.map Prod.fst = binsKeys bins) (hnd : (a.map Prod.fst).Nodup) :
    (bins.map fun b => lookupA a b.key).sum = sumA a := by
  rw [sumA_eq_sum_lookup hnd, hfst]
  unfold binsKeys
  rw [List.map_map]
  rfl

/-- The stratified strategy returns exactly `kT` lines whenever the 7-token
pool holds at least `kT` lines. -/
theorem stratified_length (binOf : RayLine → BinKey)
    (sampler : List RayLine → ℕ → List RayLine)
    (hs : ∀ l n, n ≤ l.length → (sampler l n).length = n)
    (pool : List RayLine) (kT : ℕ)
    (h7 : ∀ l ∈ pool, l.length = 7) (hge : kT ≤ pool.length) :
    (subsampleAngularStratified binOf sampler pool kT).length = kT := by
  unfold subsampleAngularStratified
  dsimp only
  by_cases hemp : (buildBins binOf pool).isEmpty
  · rw [if_pos hemp]
    have hbe : buildBins binOf pool = [] := List.isEmpty_iff.mp hemp
    have hct := buildBins_countTotal binOf h7
    rw [hbe] at hct
    simp [countTotal] at hct
    have hk0 : kT = 0 := by omega
    rw [hk0]
    exact hs pool 0 (Nat.zero_le _)
  · rw [if_neg hemp]
    have hnd := buildBins_keys_nodup binOf pool
    have hne : ∀ b ∈ buildBins binOf pool, b.lns ≠ [] :=
      fun b hb => (buildBins_mem binOf hb).1
    have hct := buildBins_countTotal binOf h7
    have hpool : kT ≤ countTotal (buildBins binOf pool) := by omega
    have rs := reconcile_spec kT (buildBins binOf pool) hnd hne hpool
    have hb : ∀ b ∈ buildBins binOf pool,
        lookupA (reconcile kT (buildBins binOf pool)
          (initAlloc kT (buildBins binOf pool))).1 b.key ≤ b.lns.length := by
      intro b hb
      have hk : b.key ∈ (reconcile kT (buildBins binOf pool)
          (initAlloc kT (buildBins binOf pool))).1.map Prod.fst := by
        rw [rs.1]
        exact List.mem_map_of_mem RayBin.key hb
      have hm := lookupA_mem hk
      have := (rs.2.1 _ hm).2
      rwa [popOf_of_mem hnd hb] at this
    have hplen : (pickBins sampler (buildBins binOf pool)
        (reconcile kT (buildBins binOf pool) (initAlloc kT (buildBins binOf pool))).1).length
        = max kT (buildBins binOf pool).length := by
      rw [pickBins_length sampler hs _ _ hb,
        sum_lookup_over_bins rs.1 (by rw [rs.1]; exact hnd), ← rs.2.2.1, rs.2.2.2]
    by_cases hlt : kT < (pickBins sampler (buildBins binOf pool)
        (reconcile kT (buildBins binOf pool) (initAlloc kT (buildBins binOf pool))).1).length
    · rw [if_pos hlt, List.length_take]
      omega
    · rw [if_neg hlt]
      have : ¬ (pickBins sampler (buildBins binOf pool)
          (reconcile kT (buildBins binOf pool)
            (initAlloc kT (buildBins binOf pool))).1).length < kT := by
        rw [hplen]
        omega
      rw [if_neg this]
      omega

/-- Every line returned by the stratified strategy comes from the input pool. -/
theorem stratified_subset (binOf : RayLine → BinKey)
    (sampler : List RayLine → ℕ → List RayLine)
    (hmem : ∀ l n x, x ∈ sampler l n → x ∈ l) (pool : List RayLine) (kT : ℕ) :
    ∀ x ∈ subsampleAngularStratified binOf sampler pool kT, x ∈ pool := by
  have hres : ∀ y ∈ pickBins sampler (buildBins binOf pool)
      (reconcile kT (buildBins binOf pool) (initAlloc kT (buildBins binOf pool))).1,
      y ∈ pool := by
    intro y hy
    rcases pickBins_subset sampler hmem _ _ y hy with ⟨b, hb, hy'⟩
    exact (buildBins_mem binOf hb).2 y hy'
  unfold subsampleAngularStratified
  dsimp only
  intro x hx
  split_ifs at hx with h1 h2 h3
  · exact hmem pool kT x hx
  · exact hres x (List.take_subset _ _ hx)
  · rcases List.mem_append.mp hx with h | h
    · exact hres x h
    · have := hmem _ _ x h
      exact (List.mem_filter.mp this).1
  · exact hres x hx

theorem rayPoolAt_len7 (lines : List RayLine) (hi : ℕ) :
    ∀ l ∈ rayPoolAt lines hi, l.length = 7 := by
  intro l hl
  have := List.mem_filter.mp hl
  simpa using this.2

theorem sanitizeFlux_pos (f : ℚ) : 0 < sanitizeFlux f := by
  unfold sanitizeFlux fluxFloor
  split_ifs with h
  · norm_num
  · linarith

theorem sanitizeFlux_of_pos {f : ℚ} (h : 0 < f) : sanitizeFlux f = f := by
  unfold sanitizeFlux
  rw [if_neg (by linarith)]

theorem sanitizeFlux_idem (f : ℚ) : sanitizeFlux (sanitizeFlux f) = sanitizeFlux f :=
  sanitizeFlux_of_pos (sanitizeFlux_pos f)

/-- Both sampling strategies return exactly the target number of lines when
the 7-token pool is large enough. -/
theorem selectRays_length (binOf : RayLine → BinKey)
    (sampler : List RayLine → ℕ → List RayLine)
    (hs : ∀ l n, n ≤ l.length → (sampler l n).length = n)
    (pool : List RayLine) (kT : ℕ)
    (h7 : ∀ l ∈ pool, l.length = 7) (hge : kT ≤ pool.length) (method : SubMethod) :
    (selectRays binOf sampler pool kT method).length = kT := by
  cases method
  · exact hs pool kT hge
  · exact stratified_length binOf sampler hs pool kT h7 hge

/-- Both sampling strategies draw only lines of the input pool. -/
theorem selectRays_subset (binOf : RayLine → BinKey)
    (sampler : List RayLine → ℕ → List RayLine)
    (hmem : ∀ l n x, x ∈ sampler l n → x ∈ l) (pool : List RayLine) (kT : ℕ)
    (method : SubMethod) : ∀ x ∈ selectRays binOf sampler pool kT method, x ∈ pool := by
  cases method
  · exact fun x hx => hmem pool kT x hx
  · exact stratified_subset binOf sampler hmem pool kT

/-- Shape of a successful subsample run: the header was found, the pool was
large enough, and the output document is built from the selected rays with
every flux scaled by `declared_ray_count / target` and sanitized. -/
theorem subsampleRun_ok_elim {binOf : RayLine → BinKey}
    {sampler : List RayLine → ℕ → List RayLine} {lines : List RayLine} {kT : ℕ}
    {method : SubMethod} {fmt : SubFormat} {out : SubOut}
    (h : subsampleRun binOf sampler lines kT method fmt = .ok out) :
    ∃ hi, lines.findIdx? isHeaderLine = some hi ∧ kT ≤ (rayPoolAt lines hi).length ∧
      (fmt = .txt → out = .txtOut ((lines.getD hi []).set 0 (kT : ℚ))
        ((selectRays binOf sampler (rayPoolAt lines hi) kT method).map
          (scaleRay ((((lines.getD hi []).getD 0 0).num.toNat : ℚ) / (kT : ℚ))))) ∧
      (fmt = .tracepro → out = .traceproOut ((lines.getD hi []).getD 0 0).num.toNat kT
        (((selectRays binOf sampler (rayPoolAt lines hi) kT method).map
          (scaleRay ((((lines.getD hi []).getD 0 0).num.toNat : ℚ) / (kT : ℚ)))).map
            writeRow)) ∧
      (fmt = .dat → ∃ du rft ft,
        pyIntTok ((lines.getD hi []).getD 1 0) = .ok du ∧
        pyIntTok ((lines.getD hi []).getD 2 0) = .ok rft ∧
        pyIntTok ((lines.getD hi []).getD 3 0) = .ok ft ∧
        out = .datOut
          ⟨8675309, kT, descriptionLit,
            ((((selectRays binOf sampler (rayPoolAt lines hi) kT method).map
              (scaleRay ((((lines.getD hi []).getD 0 0).num.toNat : ℚ) / (kT : ℚ)))).map
                fun r => r.getD 6 0).sum),
            ((((selectRays binOf sampler (rayPoolAt lines hi) kT method).map
              (scaleRay ((((lines.getD hi []).getD 0 0).num.toNat : ℚ) / (kT : ℚ)))).map
                fun r => r.getD 6 0).sum),
            0, 0, 0, 0, 0, du, 0, 0, 0, 0, 0, 0, 1, 1, 1, 0, 0, 0, 0, rft, ft, 0, 0⟩
          (((selectRays binOf sampler (rayPoolAt lines hi) kT method).map
            (scaleRay ((((lines.getD hi []).getD 0 0).num.toNat : ℚ) / (kT : ℚ)))).map
              writeRow)) := by
  unfold subsampleRun at h
  rcases hfi : lines.findIdx? isHeaderLine with _ | hi
  · rw [hfi] at h
    cases h
  · rw [hfi] at h
    dsimp only at h
    by_cases hlt : (rayPoolAt lines hi).length < kT
    · rw [if_pos hlt] at h
      cases h
    · rw [if_neg hlt] at h
      refine ⟨hi, rfl, le_of_not_lt hlt, ?_, ?_, ?_⟩ <;> intro hfmt <;> subst hfmt
      · injection h with h'
        exact h'.symm
      · injection h with h'
        exact h'.symm
      · rcases h1 : pyIntTok ((lines.getD hi []).getD 1 0) with e1 | du <;> rw [h1] at h
        · cases h
        · rcases h2 : pyIntTok ((lines.getD hi []).getD 2 0) with e2 | rft <;> rw [h2] at h
          · cases h
          · rcases h3 : pyIntTok ((lines.getD hi []).getD 3 0) with e3 | ft <;> rw [h3] at h
            · cases h
            · refine ⟨du, rft, ft, rfl, rfl, rfl, ?_⟩
              injection h with h'
              exact h'.symm

theorem scaleRay_length (s : ℚ) (l : RayLine) : (scaleRay s l).length = l.length := by
  simp [scaleRay]

theorem scaleRay_getD6 {l : RayLine} (h7 : l.length = 7) (s : ℚ) :
    (scaleRay s l).getD 6 0 = sanitizeFlux (l.getD 6 0 * s) := by
  unfold scaleRay
  rw [List.getD_eq_getElem _ _ (by simp [h7])]
  simp

theorem writeRow_getD6 {l : RayLine} (h7 : l.length = 7) :
    (writeRow l).getD 6 0 = sanitizeFlux (l.getD 6 0) := by
  unfold writeRow
  rw [List.getD_append_right _ _ _ _ (by simp [h7])]
  simp [h7]

theorem outView_scaleRay_getD6 (fmt : SubFormat) {l : RayLine} (h7 : l.length = 7) (s : ℚ) :
    (outView fmt (scaleRay s l)).getD 6 0 = sanitizeFlux (l.getD 6 0 * s) := by
  cases fmt
  · exact scaleRay_getD6 h7 s
  · show (writeRow (scaleRay s l)).getD 6 0 = _
    rw [writeRow_getD6 (by rw [scaleRay_length, h7]), scaleRay_getD6 h7, sanitizeFlux_idem]
  · show (writeRow (scaleRay s l)).getD 6 0 = _
    rw [writeRow_getD6 (by rw [scaleRay_length, h7]), scaleRay_getD6 h7, sanitizeFlux_idem]

/-- On a successful run the output rows are exactly the scaled selected rays,
viewed through the chosen format. -/
theorem subsampleRun_outRays {binOf : RayLine → BinKey}
    {sampler : List RayLine → ℕ → List RayLine} {lines : List RayLine} {kT : ℕ}
    {method : SubMethod} {fmt : SubFormat} {out : SubOut} {hi : ℕ}
    (hfi : lines.findIdx? isHeaderLine = some hi)
    (h : subsampleRun binOf sampler lines kT method fmt = .ok out) :
    outRays out = (selectRays binOf sampler (rayPoolAt lines hi) kT method).map
      (fun l => outView fmt
        (scaleRay ((((lines.getD hi []).getD 0 0).num.toNat : ℚ) / (kT : ℚ)) l)) := by
  rcases subsampleRun_ok_elim h with ⟨hi', hfi', _, htxt, htp, hdat⟩
  have hii : hi' = hi := by
    rw [hfi] at hfi'
    exact (Option.some.inj hfi').symm
  subst hii
  cases fmt
  · rw [htxt rfl]
    simp [outRays, outView]
  · rw [htp rfl]
    simp [outRays, outView, List.map_map, Function.comp]
  · rcases hdat rfl with ⟨du, rft, ft, _, _, _, hout⟩
    rw [hout]
    simp [outRays, outView, List.map_map, Function.comp]

/-- A run with the ASCII output format succeeds as soon as the header is found
and the pool covers the target. -/
theorem subsampleRun_txt_ok {binOf : RayLine → BinKey}
    {sampler : List RayLine → ℕ → List RayLine} {lines : List RayLine} {kT : ℕ}
    {method : SubMethod} {hi : ℕ} (hfi : lines.findIdx? isHeaderLine = some hi)
    (hge : ¬ (rayPoolAt lines hi).length < kT) :
    subsampleRun binOf sampler lines kT method .txt
      = .ok (.txtOut ((lines.getD hi []).set 0 (kT : ℚ))
        ((selectRays binOf sampler (rayPoolAt lines hi) kT method).map
          (scaleRay ((((lines.getD hi []).getD 0 0).num.toNat : ℚ) / (kT : ℚ))))) := by
  unfold subsampleRun
  rw [hfi]
  dsimp only
  rw [if_neg hge]

/-- A run with the binary output format succeeds as soon as the header is
found, the pool covers the target, and the three carried-over header tokens
are integer literals. -/
theorem subsampleRun_dat_ok {binOf : RayLine → BinKey}
    {sampler : List RayLine → ℕ → List RayLine} {lines : List RayLine} {kT : ℕ}
    {method : SubMethod} {hi : ℕ} {du rft ft : ℤ}
    (hfi : lines.findIdx? isHeaderLine = some hi)
    (hge : ¬ (rayPoolAt lines hi).length < kT)
    (h1 : pyIntTok ((lines.getD hi []).getD 1 0) = .ok du)
    (h2 : pyIntTok ((lines.getD hi []).getD 2 0) = .ok rft)
    (h3 : pyIntTok ((lines.getD hi []).getD 3 0) = .ok ft) :
    subsampleRun binOf sampler lines kT method .dat
      = .ok (.datOut
        ⟨8675309, kT, descriptionLit,
          ((((selectRays binOf sampler (rayPoolAt lines hi) kT method).map
            (scaleRay ((((lines.getD hi []).getD 0 0).num.toNat : ℚ) / (kT : ℚ)))).map
              fun r => r.getD 6 0).sum),
          ((((selectRays binOf sampler (rayPoolAt lines hi) kT method).map
            (scaleRay ((((lines.getD hi []).getD 0 0).num.toNat : ℚ) / (kT : ℚ)))).map
              fun r => r.getD 6 0).sum),
          0, 0, 0, 0, 0, du, 0, 0, 0, 0, 0, 0, 1, 1, 1, 0, 0, 0, 0, rft, ft, 0, 0⟩
        (((selectRays binOf sampler (rayPoolAt lines hi) kT method).map
          (scaleRay ((((lines.getD hi []).getD 0 0).num.toNat : ℚ) / (kT : ℚ)))).map
            writeRow)) := by
  unfold subsampleRun
  rw [hfi]
  dsimp only
  rw [if_neg hge, h1, h2, h3]

/-- C8. On every successful binary-format run, the written header has
identifier 8675309, the fixed description literal, source_flux and
ray_set_flux both equal to the sum of the sanitized output fluxes, zero
location and rotation, unit scale, dimension_units / ray_format_type /
flux_type carried over from the input ASCII header's tokens, and the records
are exactly one sanitized 7-field row per selected ray. -/
theorem claim8 (binOf : RayLine → BinKey) (sampler : List RayLine → ℕ → List RayLine)
    (lines : List RayLine) (kT : ℕ) (method : SubMethod) (out : SubOut)
    (hmem : ∀ l n x, x ∈ sampler l n → x ∈ l)
    (hrun : subsampleRun binOf sampler lines kT method .dat = .ok out) :
    ∃ hi hdrO recs, lines.findIdx? isHeaderLine = some hi ∧ out = .datOut hdrO recs ∧
      hdrO.identifier = 8675309 ∧ hdrO.nbrRays = kT ∧ hdrO.description = descriptionLit ∧
      hdrO.sourceFlux = (recs.map fun r => r.getD 6 0).sum ∧
      hdrO.raySetFlux = (recs.map fun r => r.getD 6 0).sum ∧
      hdrO.wavelength = 0 ∧ hdrO.azimuthBeg = 0 ∧ hdrO.azimuthEnd = 0 ∧
      hdrO.polarBeg = 0 ∧ hdrO.polarEnd = 0 ∧
      hdrO.locX = 0 ∧ hdrO.locY = 0 ∧ hdrO.locZ = 0 ∧
      hdrO.rotX = 0 ∧ hdrO.rotY = 0 ∧ hdrO.rotZ = 0 ∧
      hdrO.scaleX = 1 ∧ hdrO.scaleY = 1 ∧ hdrO.scaleZ = 1 ∧
      ((hdrO.dimensionUnits : ℚ) = (lines.getD hi []).getD 1 0) ∧
      ((hdrO.rayFormatType : ℚ) = (lines.getD hi []).getD 2 0) ∧
      ((hdrO.fluxTypeOut : ℚ) = (lines.getD hi []).getD 3 0) ∧
      recs = ((selectRays binOf sampler (rayPoolAt lines hi) kT method).map
        (scaleRay ((((lines.getD hi []).getD 0 0).num.toNat : ℚ) / (kT : ℚ)))).map
          writeRow := by
  rcases subsampleRun_ok_elim hrun with ⟨hi, hfi, _, _, _, hdat⟩
  rcases hdat rfl with ⟨du, rft, ft, h1, h2, h3, hout⟩
  have key : ∀ l ∈ selectRays binOf sampler (rayPoolAt lines hi) kT method,
      (writeRow (scaleRay ((((lines.getD hi []).getD 0 0).num.toNat : ℚ) / (kT : ℚ))
        l)).getD 6 0
      = (scaleRay ((((lines.getD hi []).getD 0 0).num.toNat : ℚ) / (kT : ℚ)) l).getD 6 0 := by
    intro l hl
    have hlp : l ∈ rayPoolAt lines hi :=
      selectRays_subset binOf sampler hmem _ kT method l hl
    have h7 : l.length = 7 := rayPoolAt_len7 lines hi l hlp
    rw [writeRow_getD6 (by rw [scaleRay_length, h7]), scaleRay_getD6 h7, sanitizeFlux_idem]
  have hsum : ((((selectRays binOf sampler (rayPoolAt lines hi) kT method).map
      (scaleRay ((((lines.getD hi []).getD 0 0).num.toNat : ℚ) / (kT : ℚ)))).map
        fun r => r.getD 6 0).sum)
      = (((((selectRays binOf sampler (rayPoolAt lines hi) kT method).map
        (scaleRay ((((lines.getD hi []).getD 0 0).num.toNat : ℚ) / (kT : ℚ)))).map
          writeRow).map fun r => r.getD 6 0).sum) := by
    refine congrArg List.sum ?_
    rw [List.map_map, List.map_map, List.map_map]
    refine List.map_congr_left fun l hl => ?_
    simp only [Function.comp_apply]
    exact (key l hl).symm
  refine ⟨hi, _, _, hfi, hout, rfl, rfl, rfl, hsum, hsum, rfl, rfl, rfl, rfl, rfl,
    rfl, rfl, rfl, rfl, rfl, rfl, rfl, rfl, rfl, ?_, ?_, ?_, rfl⟩
  · exact (pyIntTok_ok h1).symm
  · exact (pyIntTok_ok h2).symm
  · exact (pyIntTok_ok h3).symm

theorem claim8_witness :
    (∀ l n x, x ∈ takeSampler l n → x ∈ l) ∧
    ∃ out, subsampleRun tokKey takeSampler wLines 2 .random .dat = .ok out ∧
      ∃ hi hdrO recs, wLines.findIdx? isHeaderLine = some hi ∧ out = .datOut hdrO recs ∧
        hdrO.identifier = 8675309 ∧ hdrO.nbrRays = 2 ∧ hdrO.description = descriptionLit ∧
        hdrO.sourceFlux = (recs.map fun r => r.getD 6 0).sum ∧
        hdrO.raySetFlux = (recs.map fun r => r.getD 6 0).sum ∧
        hdrO.wavelength = 0 ∧ hdrO.azimuthBeg = 0 ∧ hdrO.azimuthEnd = 0 ∧
        hdrO.polarBeg = 0 ∧ hdrO.polarEnd = 0 ∧
        hdrO.locX = 0 ∧ hdrO.locY = 0 ∧ hdrO.locZ = 0 ∧
        hdrO.rotX = 0 ∧ hdrO.rotY = 0 ∧ hdrO.rotZ = 0 ∧
        hdrO.scaleX = 1 ∧ hdrO.scaleY = 1 ∧ hdrO.scaleZ = 1 ∧
        ((hdrO.dimensionUnits : ℚ) = (wLines.getD hi []).getD 1 0) ∧
        ((hdrO.rayFormatType : ℚ) = (wLines.getD hi []).getD 2 0) ∧
        ((hdrO.fluxTypeOut : ℚ) = (wLines.getD hi []).getD 3 0) ∧
        recs = ((selectRays tokKey takeSampler (rayPoolAt wLines hi) 2 .random).map
          (scaleRay ((((wLines.getD hi []).getD 0 0).num.toNat : ℚ) / (2 : ℚ)))).map
            writeRow := by
  have hmem : ∀ l n x, x ∈ takeSampler l n → x ∈ l := by
    intro l n x hx
    exact List.take_subset n l hx
  have hout := @subsampleRun_dat_ok tokKey takeSampler wLines 2 .random 0 1 0 0
    (by decide) (by decide) (by decide) (by decide) (by decide)
  exact ⟨hmem, _, hout,
    claim8 tokKey takeSampler wLines 2 .random _ hmem hout⟩

theorem beqKey (k1 k2 : BinKey) : (k1 == k2) = decide (k1 = k2) := by
  by_cases h : k1 = k2 <;> simp [h]

theorem maxA_le {a : Alloc} {m : ℕ} (h : ∀ p ∈ a, p.2 ≤ m) : maxA a ≤ m := by
  induction a with
  | nil => simp [maxA]
  | cons p a ih =>
    have h1 := h p (List.mem_cons_self p a)
    have h2 := ih fun q hq => h q (List.mem_cons_of_mem p hq)
    simp only [maxA, List.map_cons, List.foldr_cons]
    exact max_le h1 h2

theorem le_maxA {a : Alloc} {p : BinKey × ℕ} (h : p ∈ a) : p.2 ≤ maxA a := by
  induction a with
  | nil => simp at h
  | cons q a ih =>
    simp only [maxA, List.map_cons, List.foldr_cons]
    rcases List.mem_cons.mp h with rfl | h'
    · exact le_max_left _ _
    · exact le_trans (ih h') (le_max_right _ _)

/-- Every state the spec's "always decrement a currently-largest bin"
procedure can reach keeps the key list, and every quota it has touched stays
within one of the current maximum. -/
theorem specDec_invariant (kT : ℕ) (a0 a : Alloc)
    (h : Relation.ReflTransGen (SpecDecStep kT) a0 a) :
    a.map Prod.fst = a0.map Prod.fst ∧
    ∀ k, lookupA a k = lookupA a0 k ∨ maxA a ≤ lookupA a k + 1 := by
  induction h with
  | refl => exact ⟨rfl, fun k => Or.inl rfl⟩
  | @tail b c _ hstep ih =>
    cases hstep with
    | step k0 hk hsum hmax h1 =>
    have hmaxb : maxA b = lookupA b k0 := by
      refine le_antisymm (maxA_le hmax) ?_
      exact le_maxA (lookupA_mem hk)
    have hmaxc : maxA (updateA b k0 (lookupA b k0 - 1)) ≤ lookupA b k0 := by
      refine maxA_le fun p hp => ?_
      rcases mem_updateA hp with hp' | ⟨_, h2⟩
      · exact hmaxb ▸ le_maxA hp'
      · omega
    refine ⟨by rw [updateA_map_fst]; exact ih.1, fun k2 => ?_⟩
    by_cases hkk : k2 = k0
    · subst hkk
      rw [lookupA_updateA_self hk]
      right
      omega
    · rw [lookupA_updateA_ne hkk]
      rcases ih.2 k2 with hl | hr
      · exact Or.inl hl
      · right
        calc maxA (updateA b k0 (lookupA b k0 - 1)) ≤ lookupA b k0 := hmaxc
          _ = maxA b := hmaxb.symm
          _ ≤ lookupA b k2 + 1 := hr

theorem geomBinOf_pz (x y z f : ℚ) : geomBinOf [x, y, z, 0, 0, 1, f] = (0, 90) := by
  unfold geomBinOf atan2R
  have hpi := Real.pi_ne_zero
  norm_num [Real.sqrt_one, Real.arccos_one]
  have h1 : Real.pi / (2 * Real.pi) * 180 = 90 := by
    field_simp
    ring
  rw [h1]
  norm_num
  rfl

theorem geomBinOf_px (x y z f : ℚ) : geomBinOf [x, y, z, 1, 0, 0, f] = (45, 90) := by
  unfold geomBinOf atan2R
  have hpi := Real.pi_ne_zero
  norm_num [Real.sqrt_one, Real.arccos_zero, Real.arctan_zero]
  constructor
  · have h2 : Real.pi / 2 / Real.pi * 90 = 45 := by
      field_simp
      ring
    rw [h2]
    norm_num
    rfl
  · have h1 : Real.pi / (2 * Real.pi) * 180 = 90 := by
      field_simp
      ring
    rw [h1]
    norm_num
    rfl

theorem geomBinOf_mz (x y z f : ℚ) : geomBinOf [x, y, z, 0, 0, -1, f] = (89, 90) := by
  unfold geomBinOf atan2R
  have hpi := Real.pi_ne_zero
  norm_num [Real.sqrt_one, Real.arccos_neg_one]
  constructor
  · have h2 : Real.pi / Real.pi * 90 = 90 := by
      field_simp
    rw [h2]
    norm_num
    rfl
  · have h1 : Real.pi / (2 * Real.pi) * 180 = 90 := by
      field_simp
      ring
    rw [h1]
    norm_num
    rfl

theorem geomBinOf_mx (x y z f : ℚ) : geomBinOf [x, y, z, -1, 0, 0, f] = (45, 179) := by
  unfold geomBinOf atan2R
  have hpi := Real.pi_ne_zero
  norm_num [Real.sqrt_one, Real.arccos_zero, Real.arctan_zero]
  constructor
  · have h2 : Real.pi / 2 / Real.pi * 90 = 45 := by
      field_simp
      ring
    rw [h2]
    norm_num
    rfl
  · have h1 : (Real.pi + Real.pi) / (2 * Real.pi) * 180 = 180 := by
      field_simp
      ring
    rw [h1]
    norm_num
    rfl

theorem geomBinOf_py (x y z f : ℚ) : geomBinOf [x, y, z, 0, 1, 0, f] = (45, 135) := by
  unfold geomBinOf atan2R
  have hpi := Real.pi_ne_zero
  norm_num [Real.sqrt_one, Real.arccos_zero]
  constructor
  · have h2 : Real.pi / 2 / Real.pi * 90 = 45 := by
      field_simp
      ring
    rw [h2]
    norm_num
    rfl
  · have h1 : (Real.pi / 2 + Real.pi) / (2 * Real.pi) * 180 = 135 := by
      field_simp
      ring
    rw [h1]
    norm_num
    rfl

theorem geomBinOf_my (x y z f : ℚ) : geomBinOf [x, y, z, 0, -1, 0, f] = (45, 45) := by
  unfold geomBinOf atan2R
  have hpi := Real.pi_ne_zero
  norm_num [Real.sqrt_one, Real.arccos_zero]
  constructor
  · have h2 : Real.pi / 2 / Real.pi * 90 = 45 := by
      field_simp
      ring
    rw [h2]
    norm_num
    rfl
  · have h1 : (-(Real.pi / 2) + Real.pi) / (2 * Real.pi) * 180 = 45 := by
      field_simp
      ring
    rw [h1]
    norm_num
    rfl

theorem readRays_ok (b : List ℕ) (nf : ℕ) :
    ∀ cnt off i, off + cnt * (4 * nf) ≤ b.length →
      readRays b nf off i cnt =
        .ok ((List.range cnt).map fun j => decodeRecord b (off + j * (4 * nf)) nf)
  | 0, off, i, _ => by simp [readRays]
  | cnt + 1, off, i, h => by
    have h1 : off + 4 * nf ≤ b.length := by nlinarith
    have h2 : (off + 4 * nf) + cnt * (4 * nf) ≤ b.length := by nlinarith
    rw [readRays, if_pos h1, readRays_ok b nf cnt (off + 4 * nf) (i + 1) h2]
    have hr : (List.range (cnt + 1)).map (fun j => decodeRecord b (off + j * (4 * nf)) nf)
        = decodeRecord b (off + 0 * (4 * nf)) nf ::
          (List.range cnt).map (fun j => decodeRecord b ((off + 4 * nf) + j * (4 * nf)) nf) := by
      rw [List.range_succ_eq_map, List.map_cons, List.map_map]
      refine congrArg _ (List.map_congr_left fun j _ => ?_)
      simp only [Function.comp_apply]
      congr 1
      rw [Nat.succ_mul]
      ring
    rw [hr]
    simp

/-! ### Claim theorems -/

/-- C4. Binary header parsing fails exactly as described: `TruncatedHeader`
iff fewer than the fixed 208 header bytes are available; `UnknownIdentifier`
(carrying the offending value) iff the identifier is neither 1010 nor 8675309;
`UnknownFormatType` iff the format type is not 0 or 2; `UnknownFluxType` iff
the flux type is illegal for the format type; and parsing succeeds iff all
four checks pass. -/
theorem claim4 (b : List ℕ) :
    (parseBinHeader b = .error .truncatedHeader ↔ b.length < hdrSize) ∧
    (parseBinHeader b = .error (.unknownIdentifier (i32At b 0)) ↔
      hdrSize ≤ b.length ∧ ¬(i32At b 0 = 1010 ∨ i32At b 0 = 8675309)) ∧
    (parseBinHeader b = .error (.unknownFormatType (i32At b 192)) ↔
      hdrSize ≤ b.length ∧ (i32At b 0 = 1010 ∨ i32At b 0 = 8675309) ∧
      ¬(i32At b 192 = 0 ∨ i32At b 192 = 2)) ∧
    (parseBinHeader b = .error (.unknownFluxType (i32At b 196)) ↔
      hdrSize ≤ b.length ∧ (i32At b 0 = 1010 ∨ i32At b 0 = 8675309) ∧
      (i32At b 192 = 0 ∨ i32At b 192 = 2) ∧
      ((i32At b 192 = 0 ∧ ¬(i32At b 196 = 0 ∨ i32At b 196 = 1)) ∨
        (i32At b 192 ≠ 0 ∧ i32At b 196 ≠ 0))) ∧
    ((∃ h, parseBinHeader b = .ok h) ↔
      hdrSize ≤ b.length ∧ (i32At b 0 = 1010 ∨ i32At b 0 = 8675309) ∧
      (i32At b 192 = 0 ∨ i32At b 192 = 2) ∧
      ((i32At b 192 = 0 ∧ (i32At b 196 = 0 ∨ i32At b 196 = 1)) ∨
        (i32At b 192 ≠ 0 ∧ i32At b 196 = 0))) := by
  unfold parseBinHeader
  split_ifs with h1 h2 h3 h4 h5 <;> simp_all

/-- C1. For every ASCII ray pool whose 7-token ray-line count is at least
`target_rays`, with a positive target, both sampling strategies select exactly
`target_rays` lines, and every successful run (any output format) writes
exactly `target_rays` output rows. -/
theorem claim1 (binOf : RayLine → BinKey) (sampler : List RayLine → ℕ → List RayLine)
    (lines : List RayLine) (kT : ℕ) (method : SubMethod)
    (hs : ∀ l n, n ≤ l.length → (sampler l n).length = n)
    {hi : ℕ} (hfi : lines.findIdx? isHeaderLine = some hi)
    (hge : kT ≤ (rayPoolAt lines hi).length) (hkT : 0 < kT) :
    (selectRays binOf sampler (rayPoolAt lines hi) kT method).length = kT ∧
    ∀ fmt out, subsampleRun binOf sampler lines kT method fmt = .ok out →
      (outRays out).length = kT := by
  have hsel := selectRays_length binOf sampler hs _ kT (rayPoolAt_len7 lines hi) hge method
  refine ⟨hsel, fun fmt out hrun => ?_⟩
  rw [subsampleRun_outRays hfi hrun, List.length_map, hsel]

theorem claim1_witness :
    (∀ l n, n ≤ l.length → (takeSampler l n).length = n) ∧
    wLines.findIdx? isHeaderLine = some 0 ∧
    2 ≤ (rayPoolAt wLines 0).length ∧ 0 < 2 ∧
    ((selectRays tokKey takeSampler (rayPoolAt wLines 0) 2 .angularStratified).length = 2 ∧
      ∀ fmt out,
        subsampleRun tokKey takeSampler wLines 2 .angularStratified fmt = .ok out →
        (outRays out).length = 2) := by
  have hs : ∀ l n, n ≤ l.length → (takeSampler l n).length = n := by
    intro l n h
    simp only [takeSampler, List.length_take]
    omega
  exact ⟨hs, by decide, by decide, by decide,
    claim1 tokKey takeSampler wLines 2 .angularStratified hs (by decide) (by decide)
      (by decide)⟩

/-- C3. On every successful run, whatever the format, every output row's flux
is strictly positive (and finite: the whole model is exact rational
arithmetic), and equals `sanitizeFlux (flux * declared_ray_count / target)` for
some pool line — i.e. the scaled flux when that is positive, and the `1e-30`
floor otherwise. -/
theorem claim3 (binOf : RayLine → BinKey) (sampler : List RayLine → ℕ → List RayLine)
    (lines : List RayLine) (kT : ℕ) (method : SubMethod) (fmt : SubFormat) (out : SubOut)
    (hmem : ∀ l n x, x ∈ sampler l n → x ∈ l)
    (hrun : subsampleRun binOf sampler lines kT method fmt = .ok out) :
    ∀ r ∈ outRays out, 0 < r.getD 6 0 ∧
      ∃ hi l, lines.findIdx? isHeaderLine = some hi ∧ l ∈ rayPoolAt lines hi ∧
        r.getD 6 0 = sanitizeFlux (l.getD 6 0 *
          ((((lines.getD hi []).getD 0 0).num.toNat : ℚ) / (kT : ℚ))) := by
  rcases subsampleRun_ok_elim hrun with ⟨hi, hfi, _, _, _, _⟩
  intro r hr
  rw [subsampleRun_outRays hfi hrun] at hr
  rcases List.mem_map.mp hr with ⟨l, hl, rfl⟩
  have hlp : l ∈ rayPoolAt lines hi := selectRays_subset binOf sampler hmem _ kT method l hl
  have h7 : l.length = 7 := rayPoolAt_len7 lines hi l hlp
  rw [outView_scaleRay_getD6 fmt h7]
  exact ⟨sanitizeFlux_pos _, hi, l, hfi, hlp, rfl⟩

theorem claim3_witness :
    (∀ l n x, x ∈ takeSampler l n → x ∈ l) ∧
    (∃ out, subsampleRun tokKey takeSampler wLines 2 .random .txt = .ok out ∧
      ∀ r ∈ outRays out, 0 < r.getD 6 0 ∧
        ∃ hi l, wLines.findIdx? isHeaderLine = some hi ∧ l ∈ rayPoolAt wLines hi ∧
          r.getD 6 0 = sanitizeFlux (l.getD 6 0 *
            ((((wLines.getD hi []).getD 0 0).num.toNat : ℚ) / (2 : ℚ)))) := by
  have hmem : ∀ l n x, x ∈ takeSampler l n → x ∈ l := by
    intro l n x hx
    exact List.take_subset n l hx
  have hout := @subsampleRun_txt_ok tokKey takeSampler wLines 2 .random 0
    (by decide) (by decide)
  exact ⟨hmem, _, hout, claim3 tokKey takeSampler wLines 2 .random .txt _ hmem hout⟩

/-- C10. The flux scale factor is `declared / target`, where `declared` is the
count parsed from the first token of the located header line — even when it
differs from the number of valid ray lines actually collected: the actual pool
size never enters the scaling. -/
theorem claim10 (binOf : RayLine → BinKey) (sampler : List RayLine → ℕ → List RayLine)
    (lines : List RayLine) (kT : ℕ) (method : SubMethod) (fmt : SubFormat) (out : SubOut)
    {hi : ℕ} (hfi : lines.findIdx? isHeaderLine = some hi)
    (hneq : ((lines.getD hi []).getD 0 0).num.toNat ≠ (rayPoolAt lines hi).length)
    (hrun : subsampleRun binOf sampler lines kT method fmt = .ok out) :
    outRays out = (selectRays binOf sampler (rayPoolAt lines hi) kT method).map
      (fun l => outView fmt
        (scaleRay ((((lines.getD hi []).getD 0 0).num.toNat : ℚ) / (kT : ℚ)) l)) :=
  subsampleRun_outRays hfi hrun

theorem claim10_witness :
    wLines.findIdx? isHeaderLine = some 0 ∧
    ((wLines.getD 0 []).getD 0 0).num.toNat ≠ (rayPoolAt wLines 0).length ∧
    (∃ out, subsampleRun tokKey takeSampler wLines 2 .random .txt = .ok out ∧
      outRays out = (selectRays tokKey takeSampler (rayPoolAt wLines 0) 2 .random).map
        (fun l => outView .txt
          (scaleRay ((((wLines.getD 0 []).getD 0 0).num.toNat : ℚ) / (2 : ℚ)) l))) := by
  have hout := @subsampleRun_txt_ok tokKey takeSampler wLines 2 .random 0
    (by decide) (by decide)
  exact ⟨by decide, by decide, _, hout,
    claim10 tokKey takeSampler wLines 2 .random .txt _ (by decide) (by decide) hout⟩

/-- C2 (counterexample). Claim C2 as stated is false: `c2geoPool` is a
non-empty pool of three rays (in three distinct angular bins of the source's
geometric binning) with pool size 3 ≥ target 2, yet after reconciliation the
per-bin quotas sum to 3, not 2 — each non-empty bin keeps a quota of at least
1, so the sum can never come down to a target smaller than the number of
non-empty bins. -/
theorem claim2_counterexample :
    c2geoPool ≠ [] ∧ 2 ≤ c2geoPool.length ∧
    sumA (reconcile 2 (buildBins geomBinOf c2geoPool)
      (initAlloc 2 (buildBins geomBinOf c2geoPool))).1 = 3 ∧
    sumA (reconcile 2 (buildBins geomBinOf c2geoPool)
      (initAlloc 2 (buildBins geomBinOf c2geoPool))).1 ≠ 2 := by
  have hb : buildBins geomBinOf c2geoPool = c2bins := by
    norm_num [buildBins, c2geoPool, addToBins, insertRay, c2bins,
      geomBinOf_pz, geomBinOf_px, geomBinOf_mz]
  have ha : initAlloc 2 c2bins = [((0, 90), 1), ((45, 90), 1), ((89, 90), 1)] := by
    rw [initAlloc]
    have hfx : fluxTotal c2bins = 3 := by norm_num [fluxTotal, c2bins]
    rw [hfx, if_neg (by norm_num)]
    simp only [c2bins, List.map_cons, List.map_nil]
    norm_num [pyRound, popOf, List.find?, beqKey]
  have hr : reconcile 2 c2bins [((0, 90), 1), ((45, 90), 1), ((89, 90), 1)]
      = ([((0, 90), 1), ((45, 90), 1), ((89, 90), 1)], 3) := by
    rw [reconcile]
    have hsum : sumA [(((0 : ℕ), (90 : ℕ)), 1), ((45, 90), 1), ((89, 90), 1)] = 3 := by
      norm_num [sumA]
    rw [hsum, if_pos (by norm_num)]
    norm_num [sortByDesc, insAfterGE, lookupA, List.find?, beqKey, decStep, updateA]
  refine ⟨by decide, by decide, ?_, ?_⟩ <;> rw [hb, ha, hr] <;> norm_num [sumA]

/-- C2 (amended). For every non-empty pool of 7-token lines with pool size
≥ target, the per-bin quotas sum to exactly the target after reconciliation
provided the number of non-empty bins does not exceed the target (the
counterexample shows this extra condition is necessary: each non-empty bin
keeps quota ≥ 1). -/
theorem claim2_amended (binOf : RayLine → BinKey) (pool : List RayLine) (kT : ℕ)
    (h7 : ∀ l ∈ pool, l.length = 7) (hne : pool ≠ []) (hge : kT ≤ pool.length)
    (hbins : (buildBins binOf pool).length ≤ kT) :
    sumA (reconcile kT (buildBins binOf pool) (initAlloc kT (buildBins binOf pool))).1
      = kT := by
  have hnd := buildBins_keys_nodup binOf pool
  have hbne : ∀ b ∈ buildBins binOf pool, b.lns ≠ [] :=
    fun b hb => (buildBins_mem binOf hb).1
  have hct := buildBins_countTotal binOf h7
  have rs := reconcile_spec kT _ hnd hbne (by omega)
  rw [← rs.2.2.1, rs.2.2.2]
  exact Nat.max_eq_left hbins

theorem claim2_amended_witness :
    (∀ l ∈ pool3, l.length = 7) ∧ pool3 ≠ [] ∧ 3 ≤ pool3.length ∧
    (buildBins tokKey pool3).length ≤ 3 ∧
    sumA (reconcile 3 (buildBins tokKey pool3) (initAlloc 3 (buildBins tokKey pool3))).1
      = 3 :=
  ⟨by decide, by decide, by decide, by decide,
    claim2_amended tokKey pool3 3 (by decide) (by decide) (by decide) (by decide)⟩

/-- C6 (counterexample). Claim C6 as stated is false.  From `c6geoPool`
(fourteen rays in six distinct angular bins of the source's geometric
binning) the allocation stage produces quotas `6, 4, 1, 1, 1, 1` (sum 14) at
target 10, and the code's reconciliation drains the first-visited bin from 6
down to 2 while the second bin keeps 4.  No procedure that always decrements a
currently-largest-quota bin (quota kept ≥ 1, while the sum exceeds the
target) can reach that state: a quota it has decremented can never fall more
than 1 below the current maximum. -/
theorem claim6_counterexample :
    buildBins geomBinOf c6geoPool = c6bins ∧
    initAlloc 10 c6bins = c6alloc0 ∧
    10 < sumA c6alloc0 ∧
    (reconcile 10 c6bins c6alloc0).1 = c6allocFinal ∧
    ¬ Relation.ReflTransGen (SpecDecStep 10) c6alloc0 c6allocFinal := by
  have hb : buildBins geomBinOf c6geoPool = c6bins := by
    norm_num [buildBins, c6geoPool, addToBins, insertRay, c6bins, geomBinOf_pz,
      geomBinOf_px, geomBinOf_mz, geomBinOf_mx, geomBinOf_py, geomBinOf_my]
  have ha : initAlloc 10 c6bins = c6alloc0 := by
    rw [initAlloc]
    have hfx : fluxTotal c6bins = 100 := by norm_num [fluxTotal, c6bins]
    rw [hfx, if_neg (by norm_num)]
    simp only [c6bins, List.map_cons, List.map_nil]
    norm_num [pyRound, popOf, List.find?, beqKey, c6alloc0]
  have hr : (reconcile 10 c6bins c6alloc0).1 = c6allocFinal := by
    rw [reconcile]
    have hsum : sumA c6alloc0 = 14 := by norm_num [sumA, c6alloc0]
    rw [hsum, if_pos (by norm_num)]
    norm_num [sortByDesc, insAfterGE, lookupA, List.find?, beqKey, decStep, updateA,
      c6alloc0, c6allocFinal, popOf]
  refine ⟨hb, ha, by norm_num [sumA, c6alloc0], hr, ?_⟩
  intro hreach
  have inv := (specDec_invariant 10 c6alloc0 c6allocFinal hreach).2 (0, 90)
  have h2 : lookupA c6allocFinal (0, 90) = 2 := by decide
  have h6 : lookupA c6alloc0 (0, 90) = 6 := by decide
  have h4 : maxA c6allocFinal = 4 := by decide
  rcases inv with h | h
  · rw [h2, h6] at h
    omega
  · rw [h2, h4] at h
    omega

/-- C6 (amended). The decrement pass visits the bins once, in descending order
of their pre-reconciliation quota, draining each visited bin (never below
quota 1) until the excess is gone before moving to the next; the increment
pass symmetrically visits bins once in descending order of spare capacity.
Consequently, whenever the 7-token pool holds at least `target` lines, the
reconciled quotas always sum to `max target (number of non-empty bins)` —
equal to `target` exactly when the bin count does not exceed the target — and
every quota stays between 1 and its bin's population. -/
theorem claim6_amended (binOf : RayLine → BinKey) (pool : List RayLine) (kT : ℕ)
    (h7 : ∀ l ∈ pool, l.length = 7) (hge : kT ≤ pool.length) :
    sumA (reconcile kT (buildBins binOf pool) (initAlloc kT (buildBins binOf pool))).1
      = max kT (buildBins binOf pool).length ∧
    ∀ p ∈ (reconcile kT (buildBins binOf pool) (initAlloc kT (buildBins binOf pool))).1,
      1 ≤ p.2 ∧ p.2 ≤ popOf (buildBins binOf pool) p.1 := by
  have hnd := buildBins_keys_nodup binOf pool
  have hbne : ∀ b ∈ buildBins binOf pool, b.lns ≠ [] :=
    fun b hb => (buildBins_mem binOf hb).1
  have hct := buildBins_countTotal binOf h7
  have rs := reconcile_spec kT _ hnd hbne (by omega)
  refine ⟨?_, rs.2.1⟩
  rw [← rs.2.2.1]
  exact rs.2.2.2

theorem claim6_amended_witness :
    (∀ l ∈ pool3, l.length = 7) ∧ 2 ≤ pool3.length ∧
    (sumA (reconcile 2 (buildBins tokKey pool3) (initAlloc 2 (buildBins tokKey pool3))).1
      = max 2 (buildBins tokKey pool3).length ∧
    ∀ p ∈ (reconcile 2 (buildBins tokKey pool3) (initAlloc 2 (buildBins tokKey pool3))).1,
      1 ≤ p.2 ∧ p.2 ≤ popOf (buildBins tokKey pool3) p.1) :=
  ⟨by decide, by decide, claim6_amended tokKey pool3 2 (by decide) (by decide)⟩

/-- C5. For every binary input whose header passes validation and that holds at
least `ray_count` complete fixed-size records, `Convert` succeeds and produces
an ASCII document whose header line carries the binary header's ray_count,
dimension_units, ray_format_type and flux_type, followed by exactly ray_count
ray lines, one per binary record in input order. -/
theorem claim5 (b : List ℕ) (h : BinHeader) (hp : parseBinHeader b = .ok h)
    (hnn : 0 ≤ h.nbrRays)
    (hsz : hdrSize + h.nbrRays.toNat * (4 * rayFloats h.rayFormatType) ≤ b.length) :
    ∃ out, datToTxt b = .ok out ∧
      out.hdrNbr = h.nbrRays ∧ out.hdrUnits = h.dimensionUnits ∧
      out.hdrFmt = h.rayFormatType ∧ out.hdrFlux = h.fluxTypeIn ∧
      (out.rays.length : ℤ) = h.nbrRays ∧
      out.rays = (List.range h.nbrRays.toNat).map fun j =>
        decodeRecord b (hdrSize + j * (4 * rayFloats h.rayFormatType))
          (rayFloats h.rayFormatType) := by
  refine ⟨⟨h.nbrRays, h.dimensionUnits, h.rayFormatType, h.fluxTypeIn,
    (List.range h.nbrRays.toNat).map fun j =>
      decodeRecord b (hdrSize + j * (4 * rayFloats h.rayFormatType))
        (rayFloats h.rayFormatType)⟩, ?_, rfl, rfl, rfl, rfl, ?_, rfl⟩
  · unfold datToTxt
    rw [hp]
    dsimp only
    rw [readRays_ok b (rayFloats h.rayFormatType) h.nbrRays.toNat hdrSize 0 hsz]
  · simp [Int.toNat_of_nonneg hnn]

set_option maxRecDepth 100000 in
theorem claim5_witness :
    parseBinHeader wBytes = .ok ⟨1010, 1, 0, 0, 0⟩ ∧
    (0 ≤ (1 : ℤ)) ∧
    hdrSize + (1 : ℤ).toNat * (4 * rayFloats 0) ≤ wBytes.length ∧
    ∃ out, datToTxt wBytes = .ok out ∧
      out.hdrNbr = (1 : ℤ) ∧ out.hdrUnits = 0 ∧ out.hdrFmt = 0 ∧ out.hdrFlux = 0 ∧
      (out.rays.length : ℤ) = (1 : ℤ) ∧
      out.rays = (List.range (1 : ℤ).toNat).map fun j =>
        decodeRecord wBytes (hdrSize + j * (4 * rayFloats 0)) (rayFloats 0) :=
  ⟨by decide, by decide, by decide,
    claim5 wBytes ⟨1010, 1, 0, 0, 0⟩ (by decide) (by decide) (by decide)⟩

/-- C7. In the subsampling input path, a line after the located header line is
in the ray pool iff it tokenizes into exactly 7 fields (so 8-field spectral
lines are silently excluded), and the run fails with `InsufficientRays`
exactly when the pool so collected is smaller than the target (the error
carrying the collected count). -/
theorem claim7 (binOf : RayLine → BinKey) (sampler : List RayLine → ℕ → List RayLine)
    (lines : List RayLine) (kT : ℕ) (method : SubMethod) (fmt : SubFormat) :
    (∀ hi, lines.findIdx? isHeaderLine = some hi →
      ∀ l ∈ lines.drop (hi + 1), (l ∈ rayPoolAt lines hi ↔ l.length = 7)) ∧
    (∀ n, subsampleRun binOf sampler lines kT method fmt = .error (.insufficientRays n) ↔
      ∃ hi, lines.findIdx? isHeaderLine = some hi ∧
        n = (rayPoolAt lines hi).length ∧ (rayPoolAt lines hi).length < kT) := by
  constructor
  · intro hi _ l hl
    simp [rayPoolAt, List.mem_filter, hl]
  · intro n
    unfold subsampleRun
    rcases hfi : lines.findIdx? isHeaderLine with _ | hi
    · simp
    · dsimp only
      split_ifs with hlt
      · simp [hlt, eq_comm]
      · rcases fmt with _ | _ | _
        · simp [hlt]
        · simp [hlt]
        · dsimp only
          rcases h1 : pyIntTok ((lines.getD hi []).getD 1 0) with e | du <;>
            rcases h2 : pyIntTok ((lines.getD hi []).getD 2 0) with e2 | rft <;>
              rcases h3 : pyIntTok ((lines.getD hi []).getD 3 0) with e3 | ft <;>
                simp [hlt]

theorem claim7_witness :
    (∀ l ∈ wLines.drop 1, (l ∈ rayPoolAt wLines 0 ↔ l.length = 7)) ∧
    subsampleRun tokKey takeSampler wLines 7 .random .txt = .error (.insufficientRays 3) := by
  have h := claim7 tokKey takeSampler wLines 7 SubMethod.random SubFormat.txt
  constructor
  · exact fun l hl => h.1 0 (by decide) l hl
  · exact (h.2 3).mpr ⟨0, by decide, by decide, by decide⟩

/-- C9. Conversion is deterministic: the document produced by
`DatToTxtWorker.run` is a function of the input bytes alone (the embedding
consumes no randomness or other state), so two runs on equal inputs produce
identical output. -/
theorem claim9 (b₁ b₂ : List ℕ) (h : b₁ = b₂) : datToTxt b₁ = datToTxt b₂ := by
  rw [h]

theorem claim9_witness :
    wBytes = wBytes ∧ datToTxt wBytes = datToTxt wBytes :=
  ⟨rfl, claim9 wBytes wBytes rfl⟩

end SFS
